import Mathlib

/-!
TLBAnalyzer: the LRU translation-lookaside-buffer simulator of `src/tlb.cc`.

A shallow embedding of the class `TLBSimulator` (constructor, `access_address`,
the hit-rate formula of `print_stats`, `get_seen_pages`) followed by the
properties of the simulator that are established about it.

Modelling conventions.

* `uint64_t` / `size_t` values are natural numbers.  The only arithmetic the
  simulator performs on them is `address / page_size` and the comparison
  `tlb.size() >= tlb_size`, neither of which can wrap, so every result below
  holds in particular for all 64-bit inputs.
* The `long long` counters start at `0` and are only ever incremented by one per
  call; they are natural numbers (a wrap would need `2^63` calls).
* `std::list<uint64_t>` is a list of nodes.  A node carries the value it stores
  and an identity `id`, standing for the address of the heap node; a list
  iterator is the identity of the node it points at.  `push_front` allocates a
  node whose identity differs from that of every node currently in the list.
* `std::unordered_map` is an association list of (key, value) entries and
  `std::unordered_set` a list of members; iteration order is never observed by
  the simulator.
* Operations whose behaviour is undefined in C++ (division by zero, `back()` /
  `pop_back()` on an empty list, `splice` through an iterator that does not
  point into the list) are explicit faults.
-/

/-- Undefined operations that `access_address` could run into. -/
inductive Fault where
  | div_by_zero
  | empty_list
  | invalid_iterator
deriving DecidableEq

/-- One node of the `std::list<uint64_t>`: its identity (address) and stored page number. -/
structure Node where
  id : Nat
  val : Nat
deriving DecidableEq

/-- Identity handed out by the allocator for a new node of list `l`: one more than the
largest identity in use, hence different from every live node. -/
def alloc_node (l : List Node) : Nat :=
  (l.map Node.id).foldr max 0 + 1

/-- The call `l.push_front(v)`. -/
def list_push_front (l : List Node) (v : Nat) : List Node :=
  { id := alloc_node l, val := v } :: l

/-- The call `l.begin()` on a list: the iterator to the first node (`none` stands for `end()`). -/
def list_begin (l : List Node) : Option Nat :=
  l.head?.map Node.id

/-- The call `l.back()`; undefined on an empty list. -/
def list_back (l : List Node) : Except Fault Nat :=
  match l.getLast? with
  | none => .error .empty_list
  | some n => .ok n.val

/-- The call `l.pop_back()`; undefined on an empty list. -/
def list_pop_back (l : List Node) : Except Fault (List Node) :=
  match l with
  | [] => .error .empty_list
  | _ :: _ => .ok l.dropLast

/-- The call `l.splice(l.begin(), l, it)`: the node `it` points at is unlinked and relinked
at the front; undefined when `it` does not point at a node of `l`. -/
def list_splice_front (l : List Node) (it : Nat) : Except Fault (List Node) :=
  match l.find? (fun n => n.id == it) with
  | none => .error .invalid_iterator
  | some n => .ok (n :: l.eraseP (fun m => m.id == it))

/-- The call `m.find(k)`: the iterator stored under key `k`, `none` for `m.end()`. -/
def umap_find (m : List (Nat × Nat)) (k : Nat) : Option Nat :=
  (m.find? (fun e => e.1 == k)).map Prod.snd

/-- The call `m.erase(k)`. -/
def umap_erase (m : List (Nat × Nat)) (k : Nat) : List (Nat × Nat) :=
  m.filter (fun e => e.1 != k)

/-- The assignment `m[k] = v`: overwrite the entry of `k` when present, insert it otherwise. -/
def umap_assign (m : List (Nat × Nat)) (k v : Nat) : List (Nat × Nat) :=
  if m.any (fun e => e.1 == k) then m.map (fun e => if e.1 == k then (k, v) else e)
  else (k, v) :: m

/-- The call `s.insert(k)` on an `unordered_set`. -/
def uset_insert (s : List Nat) (k : Nat) : List Nat :=
  if k ∈ s then s else k :: s

/-- The data members of `class TLBSimulator`. -/
structure TLBSimulator where
  tlb_size : Nat
  page_size : Nat
  tlb_lru_order : List Node
  tlb : List (Nat × Nat)
  seen_pages : List Nat
  accesses : Nat
  hits : Nat
  misses : Nat
  cold_misses : Nat
  capacity_misses : Nat
deriving DecidableEq

/-- The constructor `TLBSimulator::TLBSimulator(tlb_size, page_size)`: it stores both
parameters as given, zeroes the five counters and leaves the three containers
default-constructed (empty). -/
def TLBSimulator.new (tlb_size page_size : Nat) : TLBSimulator :=
  { tlb_size := tlb_size, page_size := page_size, tlb_lru_order := [], tlb := [],
    seen_pages := [], accesses := 0, hits := 0, misses := 0, cold_misses := 0,
    capacity_misses := 0 }

/-- The classification block of `access_address` (lines 51-56): a page absent from
`seen_pages` is a cold miss and is recorded, any other miss is a capacity miss. -/
def TLBSimulator.classify_miss (s : TLBSimulator) (page_number : Nat) : TLBSimulator :=
  if page_number ∈ s.seen_pages then
    { s with capacity_misses := s.capacity_misses + 1 }
  else
    { s with cold_misses := s.cold_misses + 1,
             seen_pages := uset_insert s.seen_pages page_number }

/-- The eviction block of `access_address` (lines 59-63): when the map holds at least
`tlb_size` entries, the page at the back of the list is erased from the map and popped. -/
def TLBSimulator.evict_if_full (s : TLBSimulator) : Except Fault TLBSimulator :=
  if s.tlb.length ≥ s.tlb_size then
    match list_back s.tlb_lru_order with
    | .error e => .error e
    | .ok page_to_evict =>
      match list_pop_back s.tlb_lru_order with
      | .error e => .error e
      | .ok l => .ok { s with tlb := umap_erase s.tlb page_to_evict, tlb_lru_order := l }
  else .ok s

/-- The insertion block of `access_address` (lines 66-67). -/
def TLBSimulator.insert_page (s : TLBSimulator) (page_number : Nat) :
    Except Fault TLBSimulator :=
  let l := list_push_front s.tlb_lru_order page_number
  match list_begin l with
  | none => .error .invalid_iterator
  | some it => .ok { s with tlb_lru_order := l, tlb := umap_assign s.tlb page_number it }

/-- The member function `access_address(address)`. -/
def TLBSimulator.access_address (s0 : TLBSimulator) (address : Nat) :
    Except Fault TLBSimulator :=
  let s := { s0 with accesses := s0.accesses + 1 }
  if s.page_size = 0 then .error .div_by_zero
  else
    let page_number := address / s.page_size
    match umap_find s.tlb page_number with
    | some it =>
      match list_splice_front s.tlb_lru_order it with
      | .error e => .error e
      | .ok l => .ok { s with hits := s.hits + 1, tlb_lru_order := l }
    | none =>
      let s := { s with misses := s.misses + 1 }
      let s := s.classify_miss page_number
      match s.evict_if_full with
      | .error e => .error e
      | .ok s => s.insert_page page_number

/-- The member function `get_seen_pages()`. -/
def TLBSimulator.get_seen_pages (s : TLBSimulator) : List Nat :=
  s.seen_pages

/-- The hit-rate expression of `print_stats`, `(accesses > 0) ? hits / accesses * 100 : 0`,
as the exact rational the `double` computation approximates. -/
def TLBSimulator.hit_rate (s : TLBSimulator) : ℚ :=
  if s.accesses > 0 then ((s.hits : ℚ) / (s.accesses : ℚ)) * 100 else 0

/-- A harness loop: the addresses are submitted one after the other, as `run_experiment`
does; the first fault aborts the run. -/
def TLBSimulator.access_all (s : TLBSimulator) : List Nat → Except Fault TLBSimulator
  | [] => .ok s
  | a :: rest =>
    match s.access_address a with
    | .error e => .error e
    | .ok s1 => TLBSimulator.access_all s1 rest

/-- Page numbers currently resident, in recency order (front of the list first). -/
def TLBSimulator.resident (s : TLBSimulator) : List Nat :=
  s.tlb_lru_order.map Node.val

/-- The observable part of a simulator state: the recency order of the resident page
numbers, the seen-set and the five counters (node identities and the map are left out). -/
structure View where
  order : List Nat
  seen : List Nat
  accesses : Nat
  hits : Nat
  misses : Nat
  cold_misses : Nat
  capacity_misses : Nat
deriving DecidableEq

/-- The observable part of a simulator state. -/
def TLBSimulator.view (s : TLBSimulator) : View :=
  { order := s.resident, seen := s.seen_pages, accesses := s.accesses, hits := s.hits,
    misses := s.misses, cold_misses := s.cold_misses, capacity_misses := s.capacity_misses }

/-- Effect of one `access_address` call on the observable part, used to reason about runs:
a resident page moves to the front; any other page is counted and classified as a miss,
the last page is dropped when `c` pages are resident, and the page is put in front. -/
def View.step (c page_size : Nat) (v : View) (address : Nat) : View :=
  let p := address / page_size
  if p ∈ v.order then
    { v with accesses := v.accesses + 1, hits := v.hits + 1, order := p :: v.order.erase p }
  else
    { order := p :: (if c ≤ v.order.length then v.order.dropLast else v.order)
      seen := if p ∈ v.seen then v.seen else p :: v.seen
      accesses := v.accesses + 1
      hits := v.hits
      misses := v.misses + 1
      cold_misses := if p ∈ v.seen then v.cold_misses else v.cold_misses + 1
      capacity_misses := if p ∈ v.seen then v.capacity_misses + 1 else v.capacity_misses }

/-- Effect of a run of `access_address` calls on the observable part. -/
def View.run (c page_size : Nat) (v : View) (addrs : List Nat) : View :=
  addrs.foldl (View.step c page_size) v

/-- The observable part of a freshly constructed simulator. -/
def View.fresh : View :=
  { order := [], seen := [], accesses := 0, hits := 0, misses := 0, cold_misses := 0,
    capacity_misses := 0 }

/-- Representation invariant of the simulator: node identities and page numbers in the
list are pairwise distinct, the map holds exactly one entry (page, iterator) per list
node, at most `tlb_size` pages are resident, and both parameters are positive. -/
structure TLBSimulator.Inv (s : TLBSimulator) : Prop where
  ids_nodup : (s.tlb_lru_order.map Node.id).Nodup
  vals_nodup : (s.tlb_lru_order.map Node.val).Nodup
  map_perm : s.tlb.Perm (s.tlb_lru_order.map (fun n => (n.val, n.id)))
  bound : s.tlb_lru_order.length ≤ s.tlb_size
  cap_pos : 1 ≤ s.tlb_size
  page_pos : 0 < s.page_size

/-- Bookkeeping invariant of the observable part: the counters add up, every resident page
has been seen, the seen-set has no repeated member and one cold miss was counted per
member. -/
structure View.Good (v : View) : Prop where
  hits_misses : v.hits + v.misses = v.accesses
  cold_capacity : v.cold_misses + v.capacity_misses = v.misses
  resident_seen : ∀ p ∈ v.order, p ∈ v.seen
  seen_nodup : v.seen.Nodup
  cold_seen : v.cold_misses = v.seen.length

/-- Page numbers of those submissions of a run at which `cold_misses` went up, in the order
of the submissions (the run stops at the first fault). -/
def TLBSimulator.cold_trace (s : TLBSimulator) : List Nat → List Nat
  | [] => []
  | a :: rest =>
    match s.access_address a with
    | .error _ => []
    | .ok s1 =>
      (if s1.cold_misses = s.cold_misses + 1 then [a / s.page_size] else []) ++
        TLBSimulator.cold_trace s1 rest

/-- The thrashing workload: `m` submissions cycling through the addresses of `cyc` in
order, starting again at the first after the last. -/
def cyclic_addresses (cyc : List Nat) (m : Nat) : List Nat :=
  (List.range m).map (fun i => cyc.getD (i % cyc.length) 0)

/-- Fill invariant of the observable part for capacity `c`: besides the bookkeeping
invariant, no page is listed twice in the recency order, and the number of resident pages
is `c` or the number of pages seen so far, whichever is smaller. -/
structure View.Tight (c : Nat) (v : View) : Prop where
  good : v.Good
  order_nodup : v.order.Nodup
  fill : v.order.length = min c v.seen.length

/-- A list with every repeated element dropped, each element kept at its first
occurrence. -/
def dedup_keep_first : List Nat → List Nat
  | [] => []
  | x :: xs => x :: (dedup_keep_first xs).filter (· ≠ x)

/-- Reference LRU model, written after the specification: the distinct page numbers of an
address sequence listed by most recent occurrence first, that is the de-duplicated reverse
of the page-number sequence, truncated to its first `c` elements. -/
def lru_reference (c page_size : Nat) (addrs : List Nat) : List Nat :=
  (dedup_keep_first (addrs.map (· / page_size)).reverse).take c

/-! ## Containers -/

theorem alloc_node_fresh (l : List Node) : alloc_node l ∉ l.map Node.id := by
  intro h
  have : alloc_node l ≤ (l.map Node.id).foldr max 0 := List.le_max_of_le h (le_refl _)
  unfold alloc_node at this
  omega

theorem umap_find_none {m : List (Nat × Nat)} {k : Nat} (h : ∀ e ∈ m, e.1 ≠ k) :
    umap_find m k = none := by
  have : m.find? (fun e => e.1 == k) = none := by
    rw [List.find?_eq_none]
    intro e he
    simpa using h e he
  simp [umap_find, this]

theorem umap_find_some {m : List (Nat × Nat)} {k v : Nat} (h : (k, v) ∈ m) :
    ∃ w, umap_find m k = some w ∧ (k, w) ∈ m := by
  cases hf : m.find? (fun e => e.1 == k) with
  | none =>
    rw [List.find?_eq_none] at hf
    exact absurd (by simp) (hf _ h)
  | some e =>
    have h1 := List.find?_some hf
    have h2 := List.mem_of_find?_eq_some hf
    simp only [beq_iff_eq] at h1
    refine ⟨e.2, by simp [umap_find, hf], ?_⟩
    rw [← h1]
    exact h2

theorem umap_find_mem {m : List (Nat × Nat)} {k v : Nat} (h : umap_find m k = some v) :
    (k, v) ∈ m := by
  unfold umap_find at h
  cases hf : m.find? (fun e => e.1 == k) with
  | none => simp [hf] at h
  | some e =>
    have h1 := List.find?_some hf
    have h2 := List.mem_of_find?_eq_some hf
    simp only [beq_iff_eq] at h1
    simp [hf] at h
    rw [← h1, ← h]
    exact h2

theorem umap_assign_absent {m : List (Nat × Nat)} {k : Nat} (v : Nat)
    (h : ∀ e ∈ m, e.1 ≠ k) : umap_assign m k v = (k, v) :: m := by
  have : m.any (fun e => e.1 == k) = false := by
    rw [List.any_eq_false]
    intro e he
    simpa using h e he
  simp [umap_assign, this]

theorem splice_find {l : List Node} (hid : (l.map Node.id).Nodup) {n : Node} (hn : n ∈ l) :
    l.find? (fun m => m.id == n.id) = some n := by
  cases hf : l.find? (fun m => m.id == n.id) with
  | none =>
    rw [List.find?_eq_none] at hf
    exact absurd (by simp) (hf _ hn)
  | some e =>
    have h1 := List.find?_some hf
    have h2 := List.mem_of_find?_eq_some hf
    simp only [beq_iff_eq] at h1
    rw [List.inj_on_of_nodup_map hid h2 hn h1]

theorem splice_eraseP {l : List Node} (hid : (l.map Node.id).Nodup) {n : Node} (hn : n ∈ l) :
    l.eraseP (fun m => m.id == n.id) = l.erase n := by
  induction l with
  | nil => simp at hn
  | cons x xs ih =>
    rw [List.map_cons, List.nodup_cons] at hid
    by_cases hx : x = n
    · subst hx
      simp [List.eraseP_cons]
    · have hx2 : x.id ≠ n.id := by
        intro h
        rcases List.mem_cons.1 hn with h1 | h1
        · exact hx h1.symm
        · exact hid.1 (by rw [h]; exact List.mem_map_of_mem _ h1)
      have hn2 : n ∈ xs := by
        rcases List.mem_cons.1 hn with h1 | h1
        · exact absurd h1.symm hx
        · exact h1
      have hb : (x.id == n.id) = false := by simpa using hx2
      rw [List.eraseP_cons, List.erase_cons]
      simp [hb, hx, ih hid.2 hn2]

theorem list_splice_front_ok {l : List Node} (hid : (l.map Node.id).Nodup) {n : Node}
    (hn : n ∈ l) : list_splice_front l n.id = .ok (n :: l.erase n) := by
  simp [list_splice_front, splice_find hid hn, splice_eraseP hid hn]

theorem map_val_erase {l : List Node} (hv : (l.map Node.val).Nodup) {n : Node} (hn : n ∈ l) :
    (l.erase n).map Node.val = (l.map Node.val).erase n.val := by
  induction l with
  | nil => simp at hn
  | cons x xs ih =>
    rw [List.map_cons, List.nodup_cons] at hv
    by_cases hx : x = n
    · subst hx
      simp
    · have hn2 : n ∈ xs := by
        rcases List.mem_cons.1 hn with h1 | h1
        · exact absurd h1.symm hx
        · exact h1
      have hx2 : x.val ≠ n.val := by
        intro h
        exact hv.1 (by rw [h]; exact List.mem_map_of_mem _ hn2)
      rw [List.erase_cons, List.map_cons, List.erase_cons]
      simp [hx, hx2, ih hv.2 hn2]

/-! ## One call of `access_address` -/

theorem inv_find_resident {s : TLBSimulator} (h : s.Inv) {p : Nat} (hp : p ∈ s.resident) :
    ∃ n, n ∈ s.tlb_lru_order ∧ n.val = p ∧ umap_find s.tlb p = some n.id := by
  obtain ⟨n, hn, hval⟩ := List.mem_map.1 hp
  have h1 : (p, n.id) ∈ s.tlb := by
    rw [h.map_perm.mem_iff, ← hval]
    exact List.mem_map_of_mem (fun n => (n.val, n.id)) hn
  obtain ⟨w, hw, hmem⟩ := umap_find_some h1
  rw [h.map_perm.mem_iff] at hmem
  obtain ⟨m, hm, hmeq⟩ := List.mem_map.1 hmem
  simp only [Prod.mk.injEq] at hmeq
  exact ⟨m, hm, hmeq.1, by rw [hw, hmeq.2]⟩

theorem inv_find_absent {s : TLBSimulator} (h : s.Inv) {p : Nat} (hp : p ∉ s.resident) :
    ∀ e ∈ s.tlb, e.1 ≠ p := by
  intro e he hep
  rw [h.map_perm.mem_iff] at he
  obtain ⟨m, hm, hmeq⟩ := List.mem_map.1 he
  apply hp
  rw [← hep, ← hmeq]
  exact List.mem_map_of_mem Node.val hm

theorem access_address_hit {s : TLBSimulator} (h : s.Inv) (a : Nat)
    (hp : a / s.page_size ∈ s.resident) :
    ∃ s1, s.access_address a = .ok s1 ∧ s1.Inv ∧ s1.tlb_size = s.tlb_size ∧
      s1.page_size = s.page_size ∧ s1.view = View.step s.tlb_size s.page_size s.view a := by
  obtain ⟨n, hn, hval, hfind⟩ := inv_find_resident h hp
  have hps : s.page_size ≠ 0 := Nat.pos_iff_ne_zero.1 h.page_pos
  have hperm : (n :: s.tlb_lru_order.erase n).Perm s.tlb_lru_order :=
    (List.perm_cons_erase hn).symm
  refine ⟨{ s with accesses := s.accesses + 1, hits := s.hits + 1,
                   tlb_lru_order := n :: s.tlb_lru_order.erase n }, ?_, ?_, rfl, rfl, ?_⟩
  · simp [TLBSimulator.access_address, hps, hfind, list_splice_front_ok h.ids_nodup hn]
  · refine ⟨?_, ?_, ?_, ?_, h.cap_pos, h.page_pos⟩
    · exact ((hperm.map Node.id).nodup_iff).2 h.ids_nodup
    · exact ((hperm.map Node.val).nodup_iff).2 h.vals_nodup
    · exact h.map_perm.trans (hperm.map _).symm
    · show (n :: s.tlb_lru_order.erase n).length ≤ s.tlb_size
      rw [hperm.length_eq]
      exact h.bound
  · have hp2 : a / s.page_size ∈ List.map Node.val s.tlb_lru_order := hp
    simp only [TLBSimulator.view, TLBSimulator.resident, View.step, hp2, if_true,
      List.map_cons, map_val_erase h.vals_nodup hn, hval]

theorem evict_if_full_ok {t : TLBSimulator} (h : t.Inv) :
    ∃ l m, t.evict_if_full = .ok { t with tlb_lru_order := l, tlb := m } ∧
      (l.map Node.id).Nodup ∧ (l.map Node.val).Nodup ∧
      m.Perm (l.map (fun n => (n.val, n.id))) ∧ l.length + 1 ≤ t.tlb_size ∧
      l.map Node.val =
        (if t.tlb_size ≤ t.resident.length then t.resident.dropLast else t.resident) := by
  have hlen : t.tlb.length = t.tlb_lru_order.length := by
    rw [h.map_perm.length_eq, List.length_map]
  have hrl : t.resident.length = t.tlb_lru_order.length := by
    simp [TLBSimulator.resident]
  by_cases hfull : t.tlb_size ≤ t.tlb_lru_order.length
  · have hc := h.cap_pos
    rcases List.eq_nil_or_concat t.tlb_lru_order with hnil | ⟨init, b, hcat⟩
    · rw [hnil] at hfull
      simp at hfull
      omega
    · rw [List.concat_eq_append] at hcat
      have hid := h.ids_nodup
      have hv := h.vals_nodup
      have hperm := h.map_perm
      have hbound := h.bound
      rw [hcat] at hid hv hperm hbound
      rw [List.map_append, List.nodup_append] at hid hv
      have hb : ∀ e ∈ init, e.val ≠ b.val := by
        intro e he heq
        exact hv.2.2 (List.mem_map_of_mem Node.val he) (by simp [heq])
      refine ⟨init, umap_erase t.tlb b.val, ?_, hid.1, hv.1, ?_, ?_, ?_⟩
      · have h1 : t.tlb_size ≤ t.tlb.length := by rw [hlen]; exact hfull
        simp [TLBSimulator.evict_if_full, h1, hcat, list_back, list_pop_back]
        cases init <;> simp
      · have h2 := hperm.filter (fun e => e.1 != b.val)
        have h3 : List.filter (fun e => e.1 != b.val)
            (List.map (fun n => (n.val, n.id)) (init ++ [b]))
            = List.map (fun n => (n.val, n.id)) init := by
          rw [List.map_append, List.filter_append]
          have h4 : List.filter (fun e => e.1 != b.val)
              (List.map (fun n => (n.val, n.id)) init)
              = List.map (fun n => (n.val, n.id)) init := by
            rw [List.filter_eq_self]
            intro e he
            obtain ⟨x, hx, hxe⟩ := List.mem_map.1 he
            rw [← hxe]
            simpa using hb x hx
          rw [h4]
          simp
        rw [h3] at h2
        exact h2
      · simp at hbound
        exact hbound
      · rw [hrl, if_pos hfull, TLBSimulator.resident, hcat, List.map_append,
          List.map_singleton, List.dropLast_concat]
  · refine ⟨t.tlb_lru_order, t.tlb, ?_, h.ids_nodup, h.vals_nodup, h.map_perm, by omega, ?_⟩
    · have h1 : ¬ t.tlb_size ≤ t.tlb.length := by rw [hlen]; exact hfull
      simp [TLBSimulator.evict_if_full, h1]
    · rw [hrl, if_neg hfull, TLBSimulator.resident]

theorem insert_page_ok (t : TLBSimulator) (p : Nat) (hp : ∀ e ∈ t.tlb, e.1 ≠ p) :
    t.insert_page p = .ok { t with
      tlb_lru_order := { id := alloc_node t.tlb_lru_order, val := p } :: t.tlb_lru_order,
      tlb := (p, alloc_node t.tlb_lru_order) :: t.tlb } := by
  simp [TLBSimulator.insert_page, list_push_front, list_begin, umap_assign_absent _ hp]

theorem classify_miss_inv {t : TLBSimulator} (h : t.Inv) (p : Nat) :
    (t.classify_miss p).Inv := by
  unfold TLBSimulator.classify_miss
  split <;> exact ⟨h.ids_nodup, h.vals_nodup, h.map_perm, h.bound, h.cap_pos, h.page_pos⟩

theorem access_address_miss {s : TLBSimulator} (h : s.Inv) (a : Nat)
    (hp : a / s.page_size ∉ s.resident) :
    ∃ s1, s.access_address a = .ok s1 ∧ s1.Inv ∧ s1.tlb_size = s.tlb_size ∧
      s1.page_size = s.page_size ∧ s1.view = View.step s.tlb_size s.page_size s.view a := by
  have hps : s.page_size ≠ 0 := Nat.pos_iff_ne_zero.1 h.page_pos
  have hfind := umap_find_none (inv_find_absent h hp)
  have h0 : ({ s with accesses := s.accesses + 1, misses := s.misses + 1 } : TLBSimulator).Inv :=
    ⟨h.ids_nodup, h.vals_nodup, h.map_perm, h.bound, h.cap_pos, h.page_pos⟩
  obtain ⟨t, htdef⟩ : ∃ t, t = TLBSimulator.classify_miss
      { s with accesses := s.accesses + 1, misses := s.misses + 1 } (a / s.page_size) :=
    ⟨_, rfl⟩
  have ht : t.Inv := by rw [htdef]; exact classify_miss_inv h0 (a / s.page_size)
  have hsize : t.tlb_size = s.tlb_size := by
    rw [htdef]; unfold TLBSimulator.classify_miss; split <;> rfl
  have hpsz : t.page_size = s.page_size := by
    rw [htdef]; unfold TLBSimulator.classify_miss; split <;> rfl
  have hresid : t.resident = s.resident := by
    rw [htdef]; unfold TLBSimulator.classify_miss; split <;> rfl
  obtain ⟨l, m, hev, hid, hv, hperm, hlen, hres⟩ := evict_if_full_ok ht
  rw [hsize, hresid] at hres
  rw [hsize] at hlen
  have hsub : ∀ q ∈ l.map Node.val, q ∈ s.resident := by
    intro q hq
    rw [hres] at hq
    split at hq
    · exact List.dropLast_subset _ hq
    · exact hq
  have hpl : a / s.page_size ∉ l.map Node.val := fun hq => hp (hsub _ hq)
  have hpm : ∀ e ∈ m, e.1 ≠ a / s.page_size := by
    intro e he heq
    rw [hperm.mem_iff] at he
    obtain ⟨x, hx, hxe⟩ := List.mem_map.1 he
    apply hpl
    rw [← heq, ← hxe]
    exact List.mem_map_of_mem Node.val hx
  have hins := insert_page_ok { t with tlb_lru_order := l, tlb := m } (a / s.page_size) hpm
  refine ⟨{ t with
      tlb_lru_order := { id := alloc_node l, val := a / s.page_size } :: l,
      tlb := (a / s.page_size, alloc_node l) :: m }, ?_, ?_, hsize, hpsz, ?_⟩
  · simp only [TLBSimulator.access_address, hps, if_false, hfind, ← htdef, hev]
    exact hins
  · refine ⟨?_, ?_, ?_, ?_, ?_, ?_⟩
    · show (List.map Node.id ({ id := alloc_node l, val := a / s.page_size } :: l)).Nodup
      rw [List.map_cons, List.nodup_cons]
      exact ⟨alloc_node_fresh l, hid⟩
    · show (List.map Node.val ({ id := alloc_node l, val := a / s.page_size } :: l)).Nodup
      rw [List.map_cons, List.nodup_cons]
      exact ⟨hpl, hv⟩
    · show ((a / s.page_size, alloc_node l) :: m).Perm
        (List.map (fun n => (n.val, n.id)) ({ id := alloc_node l, val := a / s.page_size } :: l))
      rw [List.map_cons]
      exact List.Perm.cons _ hperm
    · show ({ id := alloc_node l, val := a / s.page_size } :: l : List Node).length ≤ t.tlb_size
      rw [List.length_cons, hsize]
      exact hlen
    · show 1 ≤ t.tlb_size
      rw [hsize]
      exact h.cap_pos
    · show 0 < t.page_size
      rw [hpsz]
      exact h.page_pos
  · have hp2 : a / s.page_size ∉ List.map Node.val s.tlb_lru_order := hp
    have hres2 : List.map Node.val l =
        if s.tlb_size ≤ (List.map Node.val s.tlb_lru_order).length then
          (List.map Node.val s.tlb_lru_order).dropLast
        else List.map Node.val s.tlb_lru_order := hres
    by_cases hseen : a / s.page_size ∈ s.seen_pages
    · simp only [htdef, TLBSimulator.view, TLBSimulator.resident, View.step, hp2, if_false,
        List.map_cons, hres2, TLBSimulator.classify_miss, hseen, if_true]
    · simp only [htdef, TLBSimulator.view, TLBSimulator.resident, View.step, hp2, if_false,
        List.map_cons, hres2, TLBSimulator.classify_miss, hseen, uset_insert]

theorem access_address_sound {s : TLBSimulator} (h : s.Inv) (a : Nat) :
    ∃ s1, s.access_address a = .ok s1 ∧ s1.Inv ∧ s1.tlb_size = s.tlb_size ∧
      s1.page_size = s.page_size ∧ s1.view = View.step s.tlb_size s.page_size s.view a := by
  by_cases hp : a / s.page_size ∈ s.resident
  · exact access_address_hit h a hp
  · exact access_address_miss h a hp

/-! ## Runs of `access_address` -/

theorem new_inv {c page_size : Nat} (hc : 1 ≤ c) (hp : 0 < page_size) :
    (TLBSimulator.new c page_size).Inv :=
  ⟨List.nodup_nil, List.nodup_nil, List.Perm.nil, Nat.zero_le _, hc, hp⟩

theorem access_all_sound {s : TLBSimulator} (h : s.Inv) (addrs : List Nat) :
    ∃ s1, s.access_all addrs = .ok s1 ∧ s1.Inv ∧ s1.tlb_size = s.tlb_size ∧
      s1.page_size = s.page_size ∧
      s1.view = View.run s.tlb_size s.page_size s.view addrs := by
  induction addrs generalizing s with
  | nil => exact ⟨s, rfl, h, rfl, rfl, rfl⟩
  | cons a rest ih =>
    obtain ⟨s1, h1, hinv, hsz, hps, hview⟩ := access_address_sound h a
    obtain ⟨s2, h2, hinv2, hsz2, hps2, hview2⟩ := ih hinv
    refine ⟨s2, ?_, hinv2, hsz2.trans hsz, hps2.trans hps, ?_⟩
    · simp only [TLBSimulator.access_all, h1, h2]
    · rw [hview2, hsz, hps, hview]
      rfl

theorem access_all_new {c page_size : Nat} (hc : 1 ≤ c) (hp : 0 < page_size)
    (addrs : List Nat) :
    ∃ s, (TLBSimulator.new c page_size).access_all addrs = .ok s ∧ s.Inv ∧ s.tlb_size = c ∧
      s.page_size = page_size ∧ s.view = View.run c page_size View.fresh addrs :=
  access_all_sound (new_inv hc hp) addrs

theorem access_all_append (s : TLBSimulator) (xs ys : List Nat) :
    s.access_all (xs ++ ys) =
      match s.access_all xs with
      | .error e => .error e
      | .ok s1 => s1.access_all ys := by
  induction xs generalizing s with
  | nil => rfl
  | cons a rest ih =>
    simp only [List.cons_append, TLBSimulator.access_all]
    cases s.access_address a with
    | error e => rfl
    | ok s1 => exact ih s1

theorem view_run_append (c page_size : Nat) (v : View) (xs ys : List Nat) :
    View.run c page_size v (xs ++ ys) = View.run c page_size (View.run c page_size v xs) ys := by
  simp [View.run, List.foldl_append]

theorem view_fresh_good : View.fresh.Good :=
  ⟨rfl, rfl, by simp [View.fresh], List.nodup_nil, rfl⟩

theorem view_step_good {c page_size : Nat} {v : View} (h : v.Good) (a : Nat) :
    (View.step c page_size v a).Good := by
  unfold View.step
  by_cases hp : a / page_size ∈ v.order
  · simp only [hp, if_true]
    refine ⟨?_, h.cold_capacity, ?_, h.seen_nodup, h.cold_seen⟩
    · have := h.hits_misses
      show v.hits + 1 + v.misses = v.accesses + 1
      omega
    · intro q hq
      rcases List.mem_cons.1 hq with h1 | h1
      · rw [h1]; exact h.resident_seen _ hp
      · exact h.resident_seen _ (List.mem_of_mem_erase h1)
  · simp only [hp, if_false]
    have hsub : ∀ q ∈ (if c ≤ v.order.length then v.order.dropLast else v.order), q ∈ v.seen := by
      intro q hq
      split at hq
      · exact h.resident_seen _ (List.dropLast_subset _ hq)
      · exact h.resident_seen _ hq
    have h1 := h.hits_misses
    have h2 := h.cold_capacity
    have h3 := h.cold_seen
    by_cases hs : a / page_size ∈ v.seen
    · simp only [hs, if_true]
      refine ⟨?_, ?_, ?_, h.seen_nodup, h3⟩
      · show v.hits + (v.misses + 1) = v.accesses + 1
        omega
      · show v.cold_misses + (v.capacity_misses + 1) = v.misses + 1
        omega
      · intro q hq
        rcases List.mem_cons.1 hq with h4 | h4
        · rw [h4]; exact hs
        · exact hsub q h4
    · simp only [hs, if_false]
      refine ⟨?_, ?_, ?_, List.nodup_cons.2 ⟨hs, h.seen_nodup⟩, ?_⟩
      · show v.hits + (v.misses + 1) = v.accesses + 1
        omega
      · show v.cold_misses + 1 + v.capacity_misses = v.misses + 1
        omega
      · intro q hq
        rcases List.mem_cons.1 hq with h4 | h4
        · rw [h4]; exact List.mem_cons_self _ _
        · exact List.mem_cons_of_mem _ (hsub q h4)
      · show v.cold_misses + 1 = (a / page_size :: v.seen).length
        rw [List.length_cons, h3]

theorem view_run_good {c page_size : Nat} {v : View} (h : v.Good) (addrs : List Nat) :
    (View.run c page_size v addrs).Good := by
  induction addrs generalizing v with
  | nil => exact h
  | cons a rest ih => exact ih (view_step_good h a)

/-! ## Invariants of reachable states -/

/-- C1: for every engine built with capacity at least 1 and a positive page size and every
address sequence, the state after each number `k` of `access_address` calls exists (no
fault) and satisfies `hits + misses = accesses` and
`cold_misses + capacity_misses = misses`. -/
theorem C1_counter_consistency (c page_size : Nat) (hc : 1 ≤ c) (hp : 0 < page_size)
    (addrs : List Nat) (k : Nat) :
    ∃ s, (TLBSimulator.new c page_size).access_all (addrs.take k) = .ok s ∧
      s.hits + s.misses = s.accesses ∧ s.cold_misses + s.capacity_misses = s.misses := by
  obtain ⟨s, hrun, _, _, _, hview⟩ := access_all_new hc hp (addrs.take k)
  have hg : s.view.Good := by
    rw [hview]
    exact view_run_good view_fresh_good _
  exact ⟨s, hrun, hg.hits_misses, hg.cold_capacity⟩

/-- Witness of C1: capacity 2, page size 4096, five addresses, after three calls. -/
theorem C1_counter_consistency_witness :
    (1 ≤ 2 ∧ 0 < 4096) ∧
    ∃ s, (TLBSimulator.new 2 4096).access_all ([0, 4096, 1, 8192, 4100].take 3) = .ok s ∧
      s.hits + s.misses = s.accesses ∧ s.cold_misses + s.capacity_misses = s.misses :=
  ⟨by decide, C1_counter_consistency 2 4096 (by decide) (by decide) [0, 4096, 1, 8192, 4100] 3⟩

/-- C2: for every engine built with capacity at least 1 and a positive page size and every
address sequence, after each number `k` of `access_address` calls the number of resident
entries, which is the size of the map `tlb` and also the length of `tlb_lru_order`, is at
most the configured capacity `tlb_size`. -/
theorem C2_capacity_bound (c page_size : Nat) (hc : 1 ≤ c) (hp : 0 < page_size)
    (addrs : List Nat) (k : Nat) :
    ∃ s, (TLBSimulator.new c page_size).access_all (addrs.take k) = .ok s ∧
      s.tlb_size = c ∧ s.tlb.length ≤ s.tlb_size ∧
      s.tlb_lru_order.length = s.tlb.length := by
  obtain ⟨s, hrun, hinv, hsz, _, _⟩ := access_all_new hc hp (addrs.take k)
  have hlen : s.tlb.length = s.tlb_lru_order.length := by
    rw [hinv.map_perm.length_eq, List.length_map]
  refine ⟨s, hrun, hsz, ?_, hlen.symm⟩
  rw [hlen]
  exact hinv.bound

/-- Witness of C2: capacity 2, page size 4096, four distinct pages, after all four calls. -/
theorem C2_capacity_bound_witness :
    (1 ≤ 2 ∧ 0 < 4096) ∧
    ∃ s, (TLBSimulator.new 2 4096).access_all ([0, 4096, 8192, 12288].take 4) = .ok s ∧
      s.tlb_size = 2 ∧ s.tlb.length ≤ s.tlb_size ∧
      s.tlb_lru_order.length = s.tlb.length :=
  ⟨by decide, C2_capacity_bound 2 4096 (by decide) (by decide) [0, 4096, 8192, 12288] 4⟩

/-- C7: in every state reached from an engine built with capacity at least 1 and a positive
page size, `tlb_lru_order` holds no page number twice (and no node twice), the map `tlb`
holds no key twice, the keys of `tlb` are exactly the page numbers in `tlb_lru_order`, and a
pair (page, iterator) is an entry of `tlb` exactly when the node that iterator points at is
in the list and stores that page; in particular the position found under a key refers to
the list node holding that key. -/
theorem C7_map_list_correspondence (c page_size : Nat) (hc : 1 ≤ c) (hp : 0 < page_size)
    (addrs : List Nat) :
    ∃ s, (TLBSimulator.new c page_size).access_all addrs = .ok s ∧
      (s.tlb_lru_order.map Node.val).Nodup ∧
      (s.tlb_lru_order.map Node.id).Nodup ∧
      (s.tlb.map Prod.fst).Nodup ∧
      (∀ k, k ∈ s.tlb.map Prod.fst ↔ k ∈ s.tlb_lru_order.map Node.val) ∧
      (∀ k it, (k, it) ∈ s.tlb ↔ ({ id := it, val := k } : Node) ∈ s.tlb_lru_order) ∧
      (∀ k it, umap_find s.tlb k = some it →
        ∃ n ∈ s.tlb_lru_order, n.id = it ∧ n.val = k) := by
  obtain ⟨s, hrun, hinv, _, _, _⟩ := access_all_new hc hp addrs
  have hkeys : (s.tlb.map Prod.fst).Perm (s.tlb_lru_order.map Node.val) := by
    have h1 := hinv.map_perm.map Prod.fst
    rw [List.map_map] at h1
    exact h1
  have hentry : ∀ k it, (k, it) ∈ s.tlb ↔ ({ id := it, val := k } : Node) ∈ s.tlb_lru_order := by
    intro k it
    rw [hinv.map_perm.mem_iff, List.mem_map]
    constructor
    · rintro ⟨n, hn, heq⟩
      simp only [Prod.mk.injEq] at heq
      have : n = { id := it, val := k } := by
        cases n
        simp only [Node.mk.injEq]
        exact ⟨heq.2, heq.1⟩
      rw [← this]
      exact hn
    · intro hn
      exact ⟨_, hn, rfl⟩
  refine ⟨s, hrun, hinv.vals_nodup, hinv.ids_nodup, hkeys.nodup_iff.2 hinv.vals_nodup,
    fun k => hkeys.mem_iff, hentry, ?_⟩
  intro k it hfind
  exact ⟨_, (hentry k it).1 (umap_find_mem hfind), rfl, rfl⟩

/-- Witness of C7: capacity 2, page size 4096, a run with a hit and an eviction. -/
theorem C7_map_list_correspondence_witness :
    (1 ≤ 2 ∧ 0 < 4096) ∧
    ∃ s, (TLBSimulator.new 2 4096).access_all [0, 4096, 1, 8192] = .ok s ∧
      (s.tlb_lru_order.map Node.val).Nodup ∧
      (s.tlb_lru_order.map Node.id).Nodup ∧
      (s.tlb.map Prod.fst).Nodup ∧
      (∀ k, k ∈ s.tlb.map Prod.fst ↔ k ∈ s.tlb_lru_order.map Node.val) ∧
      (∀ k it, (k, it) ∈ s.tlb ↔ ({ id := it, val := k } : Node) ∈ s.tlb_lru_order) ∧
      (∀ k it, umap_find s.tlb k = some it →
        ∃ n ∈ s.tlb_lru_order, n.id = it ∧ n.val = k) :=
  ⟨by decide, C7_map_list_correspondence 2 4096 (by decide) (by decide) [0, 4096, 1, 8192]⟩

/-- C8: in every state reached from an engine built with capacity at least 1 and a positive
page size, every key of `tlb` (every resident page number) is a member of `seen_pages`, and
a further `access_address` call succeeds and keeps every member of `seen_pages`, as read
through `get_seen_pages`, in the seen-set. -/
theorem C8_seen_superset (c page_size : Nat) (hc : 1 ≤ c) (hp : 0 < page_size)
    (addrs : List Nat) (a : Nat) :
    ∃ s s1, (TLBSimulator.new c page_size).access_all addrs = .ok s ∧
      s.access_address a = .ok s1 ∧
      (∀ k it, (k, it) ∈ s.tlb → k ∈ s.seen_pages) ∧
      (∀ k, k ∈ s.resident → k ∈ s.seen_pages) ∧
      (∀ p, p ∈ s.get_seen_pages → p ∈ s1.get_seen_pages) := by
  obtain ⟨s, hrun, hinv, hsz, hps, hview⟩ := access_all_new hc hp addrs
  obtain ⟨s1, hstep, _, _, _, hview1⟩ := access_address_sound hinv a
  have hg : s.view.Good := by
    rw [hview]
    exact view_run_good view_fresh_good _
  have hres : ∀ k, k ∈ s.resident → k ∈ s.seen_pages := hg.resident_seen
  refine ⟨s, s1, hrun, hstep, ?_, hres, ?_⟩
  · intro k it hk
    apply hres
    rw [hinv.map_perm.mem_iff] at hk
    obtain ⟨n, hn, heq⟩ := List.mem_map.1 hk
    simp only [Prod.mk.injEq] at heq
    rw [← heq.1]
    exact List.mem_map_of_mem Node.val hn
  · intro p hpm
    have hseen : s1.seen_pages = (View.step s.tlb_size s.page_size s.view a).seen := by
      rw [← hview1]; rfl
    show p ∈ s1.seen_pages
    rw [hseen]
    unfold View.step
    have hpm2 : p ∈ s.view.seen := hpm
    by_cases h1 : a / s.page_size ∈ s.view.order
    · simp only [h1, if_true]
      exact hpm2
    · simp only [h1, if_false]
      split
      · exact hpm2
      · exact List.mem_cons_of_mem _ hpm2

/-- Witness of C8: capacity 1, page size 4096; page 0 has been evicted and stays seen. -/
theorem C8_seen_superset_witness :
    (1 ≤ 1 ∧ 0 < 4096) ∧
    ∃ s s1, (TLBSimulator.new 1 4096).access_all [0, 4096] = .ok s ∧
      s.access_address 8192 = .ok s1 ∧
      (∀ k it, (k, it) ∈ s.tlb → k ∈ s.seen_pages) ∧
      (∀ k, k ∈ s.resident → k ∈ s.seen_pages) ∧
      (∀ p, p ∈ s.get_seen_pages → p ∈ s1.get_seen_pages) :=
  ⟨by decide, C8_seen_superset 1 4096 (by decide) (by decide) [0, 4096] 8192⟩

/-! ## Construction -/

/-- C5, counterexample: the constructor accepts a page size of 0 and a capacity of 0; the
engine built with page size 0 exists, records that page size, and `access_address` on it
divides by zero, and on the engine built with capacity 0 the first `access_address` reads
the back of an empty list. -/
theorem C5_construction_not_rejected :
    (TLBSimulator.new 1 0).page_size = 0 ∧
    (TLBSimulator.new 1 0).access_address 0 = .error .div_by_zero ∧
    (TLBSimulator.new 0 4096).tlb_size = 0 ∧
    (TLBSimulator.new 0 4096).access_address 0 = .error .empty_list :=
  ⟨rfl, rfl, rfl, rfl⟩

theorem access_address_new_cases (c page_size a : Nat) :
    (page_size = 0 →
      (TLBSimulator.new c page_size).access_address a = .error .div_by_zero) ∧
    (page_size ≠ 0 → c = 0 →
      (TLBSimulator.new c page_size).access_address a = .error .empty_list) ∧
    (page_size ≠ 0 → c ≠ 0 →
      ∃ s1, (TLBSimulator.new c page_size).access_address a = .ok s1) := by
  refine ⟨?_, ?_, ?_⟩
  · intro h
    subst h
    rfl
  · intro hne hc
    subst hc
    simp [TLBSimulator.access_address, TLBSimulator.new, hne, umap_find,
      TLBSimulator.classify_miss, TLBSimulator.evict_if_full, list_back]
  · intro hne hc
    obtain ⟨s1, h1, _⟩ :=
      access_address_sound (new_inv (Nat.one_le_iff_ne_zero.2 hc) (Nat.pos_of_ne_zero hne)) a
    exact ⟨s1, h1⟩

/-- C5, amended: construction never fails; for every capacity and page size, 0 included,
the constructor yields an engine that stores the two parameters as given, with all five
counters 0 and the list, the map and the seen-set empty.  A call of `access_address` on
that engine divides by zero exactly when the page size given at construction is 0; it
reads the back of an empty list exactly when the page size is not 0 and the capacity is 0;
and it completes, returning a state, exactly when both parameters are not 0. -/
theorem C5_construction_total (c page_size a : Nat) :
    (TLBSimulator.new c page_size).tlb_size = c ∧
    (TLBSimulator.new c page_size).page_size = page_size ∧
    (TLBSimulator.new c page_size).tlb_lru_order = [] ∧
    (TLBSimulator.new c page_size).tlb = [] ∧
    (TLBSimulator.new c page_size).seen_pages = [] ∧
    (TLBSimulator.new c page_size).accesses = 0 ∧
    (TLBSimulator.new c page_size).hits = 0 ∧
    (TLBSimulator.new c page_size).misses = 0 ∧
    (TLBSimulator.new c page_size).cold_misses = 0 ∧
    (TLBSimulator.new c page_size).capacity_misses = 0 ∧
    ((TLBSimulator.new c page_size).access_address a = .error .div_by_zero ↔
      page_size = 0) ∧
    ((TLBSimulator.new c page_size).access_address a = .error .empty_list ↔
      page_size ≠ 0 ∧ c = 0) ∧
    ((∃ s1, (TLBSimulator.new c page_size).access_address a = .ok s1) ↔
      page_size ≠ 0 ∧ c ≠ 0) := by
  obtain ⟨hdiv, hempty, hok⟩ := access_address_new_cases c page_size a
  refine ⟨rfl, rfl, rfl, rfl, rfl, rfl, rfl, rfl, rfl, rfl, ?_, ?_, ?_⟩
  · constructor
    · intro h
      by_contra hne
      by_cases hc : c = 0
      · rw [hempty hne hc] at h
        cases h
      · obtain ⟨s1, h1⟩ := hok hne hc
        rw [h1] at h
        cases h
    · exact hdiv
  · constructor
    · intro h
      by_cases hps : page_size = 0
      · rw [hdiv hps] at h
        cases h
      · refine ⟨hps, ?_⟩
        by_contra hc
        obtain ⟨s1, h1⟩ := hok hps hc
        rw [h1] at h
        cases h
    · rintro ⟨hps, hc⟩
      exact hempty hps hc
  · constructor
    · rintro ⟨s1, h⟩
      by_cases hps : page_size = 0
      · rw [hdiv hps] at h
        cases h
      · refine ⟨hps, ?_⟩
        intro hc
        rw [hempty hps hc] at h
        cases h
    · rintro ⟨hps, hc⟩
      exact hok hps hc

/-! ## Hits, misses and their classification -/

theorem view_step_hit {c page_size : Nat} {v : View} {a : Nat} (h : a / page_size ∈ v.order) :
    View.step c page_size v a =
      { v with accesses := v.accesses + 1, hits := v.hits + 1,
               order := a / page_size :: v.order.erase (a / page_size) } := by
  simp only [View.step, h, if_true]

theorem view_step_miss {c page_size : Nat} {v : View} {a : Nat} (h : a / page_size ∉ v.order) :
    View.step c page_size v a =
      { order := a / page_size :: (if c ≤ v.order.length then v.order.dropLast else v.order)
        seen := if a / page_size ∈ v.seen then v.seen else a / page_size :: v.seen
        accesses := v.accesses + 1
        hits := v.hits
        misses := v.misses + 1
        cold_misses := if a / page_size ∈ v.seen then v.cold_misses else v.cold_misses + 1
        capacity_misses :=
          if a / page_size ∈ v.seen then v.capacity_misses + 1 else v.capacity_misses } := by
  simp only [View.step, h, if_false]

theorem view_step_head (c page_size : Nat) (v : View) (a : Nat) :
    a / page_size ∈ (View.step c page_size v a).order := by
  by_cases h : a / page_size ∈ v.order
  · rw [view_step_hit h]
    exact List.mem_cons_self _ _
  · rw [view_step_miss h]
    exact List.mem_cons_self _ _

theorem view_step_seen (c page_size : Nat) {v : View} (hg : v.Good) (a q : Nat) :
    q ∈ (View.step c page_size v a).seen ↔ q ∈ v.seen ∨ q = a / page_size := by
  by_cases h : a / page_size ∈ v.order
  · rw [view_step_hit h]
    constructor
    · intro hq
      exact Or.inl hq
    · rintro (hq | hq)
      · exact hq
      · rw [hq]
        exact hg.resident_seen _ h
  · rw [view_step_miss h]
    by_cases hs : a / page_size ∈ v.seen
    · simp only [hs, if_true]
      constructor
      · intro hq
        exact Or.inl hq
      · rintro (hq | hq)
        · exact hq
        · rw [hq]
          exact hs
    · simp only [hs, if_false, List.mem_cons]
      exact or_comm

theorem view_run_seen (c page_size : Nat) {v : View} (hg : v.Good) (addrs : List Nat)
    (q : Nat) :
    q ∈ (View.run c page_size v addrs).seen ↔ q ∈ v.seen ∨ ∃ x ∈ addrs, x / page_size = q := by
  induction addrs generalizing v with
  | nil => simp [View.run]
  | cons a rest ih =>
    have h1 : View.run c page_size v (a :: rest)
        = View.run c page_size (View.step c page_size v a) rest := rfl
    rw [h1, ih (view_step_good hg a), view_step_seen c page_size hg]
    constructor
    · rintro ((hq | hq) | ⟨x, hx, hxq⟩)
      · exact Or.inl hq
      · exact Or.inr ⟨a, List.mem_cons_self _ _, hq.symm⟩
      · exact Or.inr ⟨x, List.mem_cons_of_mem _ hx, hxq⟩
    · rintro (hq | ⟨x, hx, hxq⟩)
      · exact Or.inl (Or.inl hq)
      · rcases List.mem_cons.1 hx with h2 | h2
        · exact Or.inl (Or.inr (by rw [← hxq, h2]))
        · exact Or.inr ⟨x, h2, hxq⟩

/-- C6: for every engine built with capacity at least 1 and a positive page size and every
address `a`: on a fresh engine two submissions of `a` in a row succeed, the first is a miss
(no hit) and the second a hit, leaving accesses = 2, misses = 1, hits = 1; and in every
state reached by any address sequence, the second of two consecutive submissions of `a`
is a hit (hits goes up by one, misses does not change). -/
theorem C6_reaccess_hits (c page_size : Nat) (hc : 1 ≤ c) (hp : 0 < page_size)
    (a : Nat) (addrs : List Nat) :
    (∃ s1 s2, (TLBSimulator.new c page_size).access_address a = .ok s1 ∧
      s1.access_address a = .ok s2 ∧
      (TLBSimulator.new c page_size).access_all [a, a] = .ok s2 ∧
      s1.accesses = 1 ∧ s1.misses = 1 ∧ s1.hits = 0 ∧
      s2.accesses = 2 ∧ s2.misses = 1 ∧ s2.hits = 1) ∧
    (∃ s0 s1 s2, (TLBSimulator.new c page_size).access_all addrs = .ok s0 ∧
      s0.access_address a = .ok s1 ∧ s1.access_address a = .ok s2 ∧
      s2.accesses = s1.accesses + 1 ∧ s2.hits = s1.hits + 1 ∧ s2.misses = s1.misses) := by
  have key : ∀ s0 : TLBSimulator, s0.Inv → ∃ s1 s2, s0.access_address a = .ok s1 ∧
      s1.access_address a = .ok s2 ∧
      s1.view = View.step s0.tlb_size s0.page_size s0.view a ∧
      s2.accesses = s1.accesses + 1 ∧ s2.hits = s1.hits + 1 ∧ s2.misses = s1.misses := by
    intro s0 hinv
    obtain ⟨s1, h1, hinv1, hsz1, hps1, hview1⟩ := access_address_sound hinv a
    obtain ⟨s2, h2, _, _, _, hview2⟩ := access_address_sound hinv1 a
    have hmem : a / s1.page_size ∈ s1.view.order := by
      rw [hview1, hps1]
      exact view_step_head _ _ _ _
    rw [view_step_hit hmem] at hview2
    refine ⟨s1, s2, h1, h2, hview1, ?_, ?_, ?_⟩
    · exact congrArg View.accesses hview2
    · exact congrArg View.hits hview2
    · exact congrArg View.misses hview2
  constructor
  · obtain ⟨s1, s2, h1, h2, hview1, ha, hh, hm⟩ := key _ (new_inv hc hp)
    have hfresh : a / page_size ∉ (TLBSimulator.new c page_size).view.order := by
      simp [TLBSimulator.view, TLBSimulator.resident, TLBSimulator.new]
    have hv : s1.view = View.step c page_size (TLBSimulator.new c page_size).view a := hview1
    rw [view_step_miss hfresh] at hv
    have e1 : s1.accesses = 1 := congrArg View.accesses hv
    have e2 : s1.misses = 1 := congrArg View.misses hv
    have e3 : s1.hits = 0 := congrArg View.hits hv
    refine ⟨s1, s2, h1, h2, ?_, e1, e2, e3, ?_, ?_, ?_⟩
    · simp only [TLBSimulator.access_all, h1, h2]
    · rw [ha, e1]
    · rw [hm, e2]
    · rw [hh, e3]
  · obtain ⟨s0, h0, hinv, _, _, _⟩ := access_all_new hc hp addrs
    obtain ⟨s1, s2, h1, h2, _, ha, hh, hm⟩ := key s0 hinv
    exact ⟨s0, s1, s2, h0, h1, h2, ha, hh, hm⟩

/-- Witness of C6: capacity 1, page size 4096, address 5000 after a run that left another
page resident. -/
theorem C6_reaccess_hits_witness :
    (1 ≤ 1 ∧ 0 < 4096) ∧
    ((∃ s1 s2, (TLBSimulator.new 1 4096).access_address 5000 = .ok s1 ∧
      s1.access_address 5000 = .ok s2 ∧
      (TLBSimulator.new 1 4096).access_all [5000, 5000] = .ok s2 ∧
      s1.accesses = 1 ∧ s1.misses = 1 ∧ s1.hits = 0 ∧
      s2.accesses = 2 ∧ s2.misses = 1 ∧ s2.hits = 1) ∧
    (∃ s0 s1 s2, (TLBSimulator.new 1 4096).access_all [5000, 0] = .ok s0 ∧
      s0.access_address 5000 = .ok s1 ∧ s1.access_address 5000 = .ok s2 ∧
      s2.accesses = s1.accesses + 1 ∧ s2.hits = s1.hits + 1 ∧ s2.misses = s1.misses)) :=
  ⟨by decide, C6_reaccess_hits 1 4096 (by decide) (by decide) 5000 [5000, 0]⟩

theorem access_all_snoc {s s1 s2 : TLBSimulator} {xs : List Nat} {a : Nat}
    (h1 : s.access_all xs = .ok s1) (h2 : s1.access_address a = .ok s2) :
    s.access_all (xs ++ [a]) = .ok s2 := by
  rw [access_all_append, h1]
  simp only [TLBSimulator.access_all, h2]

theorem view_aba_c {page_size a b c : Nat}
    (hab : a / page_size ≠ b / page_size) (hac : a / page_size ≠ c / page_size)
    (hbc : b / page_size ≠ c / page_size) :
    View.run 2 page_size View.fresh [a, b, a] =
      { order := [a / page_size, b / page_size], seen := [b / page_size, a / page_size],
        accesses := 3, hits := 1, misses := 2, cold_misses := 2, capacity_misses := 0 } ∧
    View.run 2 page_size View.fresh [a, b, a, c] =
      { order := [c / page_size, a / page_size],
        seen := [c / page_size, b / page_size, a / page_size],
        accesses := 4, hits := 1, misses := 3, cold_misses := 3, capacity_misses := 0 } := by
  have hba := hab.symm
  have hca := hac.symm
  have hcb := hbc.symm
  constructor <;>
  simp [View.run, View.step, View.fresh, hab, hba, hac, hca, hbc, hcb]

/-- C3: with capacity 2, any positive page size and three addresses `a`, `b`, `c` of pairwise
distinct page numbers A, B, C, submitting `[a, b, a, c]` to a fresh engine succeeds; before
the access of `c` the resident pages are A (most recent) and B, the access of `c` evicts B
and not A, so that afterwards exactly C and A are resident (in the list and as map keys);
from that state a submission of `a` is a hit and a submission of `b` is a miss, counted as
a capacity miss and not as a cold miss. -/
theorem C3_lru_evicts_least_recent (page_size a b c : Nat) (hp : 0 < page_size)
    (hab : a / page_size ≠ b / page_size) (hac : a / page_size ≠ c / page_size)
    (hbc : b / page_size ≠ c / page_size) :
    ∃ s3 s4, (TLBSimulator.new 2 page_size).access_all [a, b, a] = .ok s3 ∧
      s3.access_address c = .ok s4 ∧
      (TLBSimulator.new 2 page_size).access_all [a, b, a, c] = .ok s4 ∧
      s3.resident = [a / page_size, b / page_size] ∧
      s4.resident = [c / page_size, a / page_size] ∧
      b / page_size ∉ s4.resident ∧
      (∀ k, k ∈ s4.tlb.map Prod.fst ↔ k = a / page_size ∨ k = c / page_size) ∧
      (∃ s5, s4.access_address a = .ok s5 ∧ s5.hits = s4.hits + 1 ∧
        s5.misses = s4.misses) ∧
      (∃ s6, s4.access_address b = .ok s6 ∧ s6.hits = s4.hits ∧
        s6.misses = s4.misses + 1 ∧ s6.capacity_misses = s4.capacity_misses + 1 ∧
        s6.cold_misses = s4.cold_misses) := by
  obtain ⟨hv3, hv4⟩ := view_aba_c hab hac hbc
  obtain ⟨s3, h3, hinv3, hsz3, hps3, hview3⟩ :=
    access_all_new (show 1 ≤ 2 by decide) hp [a, b, a]
  obtain ⟨s4, h4, hinv4, hsz4, hps4, hview4⟩ := access_address_sound hinv3 c
  rw [hv3] at hview3
  have hview4b : s4.view = View.run 2 page_size View.fresh [a, b, a, c] := by
    rw [hview4, hsz3, hps3, hview3, ← hv3]
    rfl
  rw [hv4] at hview4b
  have hres4 : s4.resident = [c / page_size, a / page_size] := congrArg View.order hview4b
  have hseen4 : s4.seen_pages = [c / page_size, b / page_size, a / page_size] :=
    congrArg View.seen hview4b
  have hsz : s4.tlb_size = 2 := hsz4.trans hsz3
  have hps : s4.page_size = page_size := hps4.trans hps3
  have hrun4 : (TLBSimulator.new 2 page_size).access_all [a, b, a, c] = .ok s4 := by
    exact access_all_snoc h3 h4
  have hbres : b / page_size ∉ s4.resident := by
    rw [hres4]
    simp [hbc, hab.symm]
  refine ⟨s3, s4, h3, h4, hrun4, congrArg View.order hview3, hres4, hbres, ?_, ?_, ?_⟩
  · intro k
    have hkeys : (s4.tlb.map Prod.fst).Perm (s4.tlb_lru_order.map Node.val) := by
      have h1 := hinv4.map_perm.map Prod.fst
      rw [List.map_map] at h1
      exact h1
    rw [hkeys.mem_iff]
    have : s4.tlb_lru_order.map Node.val = [c / page_size, a / page_size] := hres4
    rw [this]
    simp [or_comm]
  · obtain ⟨s5, h5, _, _, _, hview5⟩ := access_address_sound hinv4 a
    have hmem : a / s4.page_size ∈ s4.view.order := by
      rw [hps]
      show a / page_size ∈ s4.resident
      rw [hres4]
      simp
    rw [view_step_hit hmem] at hview5
    exact ⟨s5, h5, congrArg View.hits hview5, congrArg View.misses hview5⟩
  · obtain ⟨s6, h6, _, _, _, hview6⟩ := access_address_sound hinv4 b
    have hmem : b / s4.page_size ∉ s4.view.order := by
      rw [hps]
      exact hbres
    have hs : b / s4.page_size ∈ s4.view.seen := by
      rw [hps]
      show b / page_size ∈ s4.seen_pages
      rw [hseen4]
      simp
    rw [view_step_miss hmem] at hview6
    refine ⟨s6, h6, congrArg View.hits hview6, congrArg View.misses hview6, ?_, ?_⟩
    · have := congrArg View.capacity_misses hview6
      simp only [hs, if_true] at this
      exact this
    · have := congrArg View.cold_misses hview6
      simp only [hs, if_true] at this
      exact this

/-- Witness of C3: page size 4096 and the addresses 0, 4096, 8192 (pages 0, 1, 2). -/
theorem C3_lru_evicts_least_recent_witness :
    (0 < 4096 ∧ 0 / 4096 ≠ 4096 / 4096 ∧ 0 / 4096 ≠ 8192 / 4096 ∧ 4096 / 4096 ≠ 8192 / 4096) ∧
    ∃ s3 s4, (TLBSimulator.new 2 4096).access_all [0, 4096, 0] = .ok s3 ∧
      s3.access_address 8192 = .ok s4 ∧
      (TLBSimulator.new 2 4096).access_all [0, 4096, 0, 8192] = .ok s4 ∧
      s3.resident = [0 / 4096, 4096 / 4096] ∧
      s4.resident = [8192 / 4096, 0 / 4096] ∧
      4096 / 4096 ∉ s4.resident ∧
      (∀ k, k ∈ s4.tlb.map Prod.fst ↔ k = 0 / 4096 ∨ k = 8192 / 4096) ∧
      (∃ s5, s4.access_address 0 = .ok s5 ∧ s5.hits = s4.hits + 1 ∧
        s5.misses = s4.misses) ∧
      (∃ s6, s4.access_address 4096 = .ok s6 ∧ s6.hits = s4.hits ∧
        s6.misses = s4.misses + 1 ∧ s6.capacity_misses = s4.capacity_misses + 1 ∧
        s6.cold_misses = s4.cold_misses) :=
  ⟨by decide, C3_lru_evicts_least_recent 4096 0 4096 8192 (by decide) (by decide) (by decide)
    (by decide)⟩

theorem access_address_classified {s : TLBSimulator} (hinv : s.Inv) (hg : s.view.Good)
    (a : Nat) :
    ∃ s1, s.access_address a = .ok s1 ∧ s1.Inv ∧ s1.view.Good ∧
      s1.page_size = s.page_size ∧
      (a / s.page_size ∉ s.seen_pages →
        s1.cold_misses = s.cold_misses + 1 ∧ s1.misses = s.misses + 1 ∧
        s1.capacity_misses = s.capacity_misses ∧ s1.hits = s.hits) ∧
      (a / s.page_size ∈ s.seen_pages →
        s1.cold_misses = s.cold_misses ∧
        (s1.misses = s.misses + 1 → s1.capacity_misses = s.capacity_misses + 1)) ∧
      (∀ q, q ∈ s1.seen_pages ↔ q ∈ s.seen_pages ∨ q = a / s.page_size) := by
  obtain ⟨s1, h1, hinv1, _, hps1, hview1⟩ := access_address_sound hinv a
  have hg1 : s1.view.Good := by
    rw [hview1]
    exact view_step_good hg a
  have hseen : ∀ q, q ∈ s1.seen_pages ↔ q ∈ s.seen_pages ∨ q = a / s.page_size := by
    intro q
    have := view_step_seen s.tlb_size s.page_size hg a q
    rw [← hview1] at this
    exact this
  refine ⟨s1, h1, hinv1, hg1, hps1, ?_, ?_, hseen⟩
  · intro hns
    have hs : a / s.page_size ∉ s.view.seen := hns
    have hno : a / s.page_size ∉ s.view.order := fun h => hns (hg.resident_seen _ h)
    rw [view_step_miss hno] at hview1
    have e1 := congrArg View.cold_misses hview1
    have e2 := congrArg View.misses hview1
    have e3 := congrArg View.capacity_misses hview1
    have e4 := congrArg View.hits hview1
    simp only [hs, if_false] at e1 e3
    exact ⟨e1, e2, e3, e4⟩
  · intro hin
    have hs : a / s.page_size ∈ s.view.seen := hin
    by_cases ho : a / s.page_size ∈ s.view.order
    · rw [view_step_hit ho] at hview1
      have e1 : s1.cold_misses = s.cold_misses := congrArg View.cold_misses hview1
      have e2 : s1.misses = s.misses := congrArg View.misses hview1
      refine ⟨e1, ?_⟩
      intro hm
      omega
    · rw [view_step_miss ho] at hview1
      have e1 := congrArg View.cold_misses hview1
      have e3 := congrArg View.capacity_misses hview1
      simp only [hs, if_true] at e1 e3
      exact ⟨e1, fun _ => e3⟩

theorem cold_trace_fresh {s : TLBSimulator} (hinv : s.Inv) (hg : s.view.Good)
    (addrs : List Nat) :
    (s.cold_trace addrs).Nodup ∧ ∀ q ∈ s.cold_trace addrs, q ∉ s.seen_pages := by
  induction addrs generalizing s with
  | nil => exact ⟨List.nodup_nil, by simp [TLBSimulator.cold_trace]⟩
  | cons a rest ih =>
    obtain ⟨s1, h1, hinv1, hg1, _, hcold, hwarm, hseen⟩ := access_address_classified hinv hg a
    obtain ⟨hnd, hns⟩ := ih hinv1 hg1
    have hrest : ∀ q ∈ s1.cold_trace rest, q ∉ s.seen_pages ∧ q ≠ a / s.page_size := by
      intro q hq
      have := hns q hq
      rw [hseen] at this
      exact ⟨fun h => this (Or.inl h), fun h => this (Or.inr h)⟩
    simp only [TLBSimulator.cold_trace, h1]
    by_cases hc : s1.cold_misses = s.cold_misses + 1
    · have hnot : a / s.page_size ∉ s.seen_pages := by
        intro hin
        have := (hwarm hin).1
        omega
      simp only [hc, if_true, List.singleton_append]
      refine ⟨List.nodup_cons.2 ⟨fun hq => (hrest _ hq).2 rfl, hnd⟩, ?_⟩
      intro q hq
      rcases List.mem_cons.1 hq with h2 | h2
      · rw [h2]; exact hnot
      · exact (hrest q h2).1
    · simp only [hc, if_false, List.nil_append]
      exact ⟨hnd, fun q hq => (hrest q hq).1⟩

/-- C4: for every engine built with capacity at least 1 and a positive page size, every
address sequence `pre` followed by an address `a` of page number p: the submission of `a`
succeeds; when no address of `pre` maps to p (first submission of p) it is a cold miss,
`cold_misses` and `misses` go up by one and `capacity_misses` stays; when some address of
`pre` maps to p, `cold_misses` stays and, if the submission misses, `capacity_misses` goes
up by one.  Hence in a run over any sequence `addrs` each page number is classified cold
at most once. -/
theorem C4_cold_miss_once (c page_size : Nat) (hc : 1 ≤ c) (hp : 0 < page_size)
    (pre : List Nat) (a : Nat) (addrs : List Nat) (p : Nat) :
    (∃ s s1, (TLBSimulator.new c page_size).access_all pre = .ok s ∧
      s.access_address a = .ok s1 ∧
      ((∀ x ∈ pre, x / page_size ≠ a / page_size) →
        s1.cold_misses = s.cold_misses + 1 ∧ s1.misses = s.misses + 1 ∧
        s1.capacity_misses = s.capacity_misses ∧ s1.hits = s.hits) ∧
      ((∃ x ∈ pre, x / page_size = a / page_size) →
        s1.cold_misses = s.cold_misses ∧
        (s1.misses = s.misses + 1 → s1.capacity_misses = s.capacity_misses + 1))) ∧
    ((TLBSimulator.new c page_size).cold_trace addrs).count p ≤ 1 := by
  constructor
  · obtain ⟨s, hrun, hinv, _, hps, hview⟩ := access_all_new hc hp pre
    have hg : s.view.Good := by
      rw [hview]
      exact view_run_good view_fresh_good _
    have hseen : ∀ q, q ∈ s.seen_pages ↔ ∃ x ∈ pre, x / page_size = q := by
      intro q
      have := view_run_seen c page_size view_fresh_good pre q
      rw [← hview] at this
      simpa [View.fresh] using this
    obtain ⟨s1, h1, _, _, _, hcold, hwarm, _⟩ := access_address_classified hinv hg a
    rw [hps] at hcold hwarm
    refine ⟨s, s1, hrun, h1, ?_, ?_⟩
    · intro hfirst
      apply hcold
      rw [hseen]
      rintro ⟨x, hx, hxe⟩
      exact hfirst x hx hxe
    · intro hlater
      exact hwarm ((hseen _).2 hlater)
  · exact List.nodup_iff_count_le_one.1
      (cold_trace_fresh (new_inv hc hp) view_fresh_good addrs).1 p

/-- Witness of C4: capacity 1, page size 4096; page 0 is submitted, evicted by page 1 and
submitted again through address 100. -/
theorem C4_cold_miss_once_witness :
    (1 ≤ 1 ∧ 0 < 4096) ∧
    ((∃ s s1, (TLBSimulator.new 1 4096).access_all [0, 4096] = .ok s ∧
      s.access_address 100 = .ok s1 ∧
      ((∀ x ∈ [0, 4096], x / 4096 ≠ 100 / 4096) →
        s1.cold_misses = s.cold_misses + 1 ∧ s1.misses = s.misses + 1 ∧
        s1.capacity_misses = s.capacity_misses ∧ s1.hits = s.hits) ∧
      ((∃ x ∈ [0, 4096], x / 4096 = 100 / 4096) →
        s1.cold_misses = s.cold_misses ∧
        (s1.misses = s.misses + 1 → s1.capacity_misses = s.capacity_misses + 1))) ∧
    ((TLBSimulator.new 1 4096).cold_trace [0, 4096, 100]).count 0 ≤ 1) :=
  ⟨by decide, C4_cold_miss_once 1 4096 (by decide) (by decide) [0, 4096] 100 [0, 4096, 100] 0⟩

/-! ## Scenario: a working set that fits -/

theorem view_run_cold_pass (c page_size : Nat) (addrs : List Nat) (v : View)
    (hnd : (addrs.map (· / page_size)).Nodup)
    (hord : ∀ a ∈ addrs, a / page_size ∉ v.order)
    (hseen : ∀ a ∈ addrs, a / page_size ∉ v.seen)
    (hlen : v.order.length + addrs.length ≤ c) :
    View.run c page_size v addrs =
      { order := (addrs.map (· / page_size)).reverse ++ v.order
        seen := (addrs.map (· / page_size)).reverse ++ v.seen
        accesses := v.accesses + addrs.length
        hits := v.hits
        misses := v.misses + addrs.length
        cold_misses := v.cold_misses + addrs.length
        capacity_misses := v.capacity_misses } := by
  induction addrs generalizing v with
  | nil => simp [View.run]
  | cons a rest ih =>
    have h1 : View.run c page_size v (a :: rest)
        = View.run c page_size (View.step c page_size v a) rest := rfl
    have ha : a / page_size ∉ v.order := hord a (List.mem_cons_self _ _)
    have hs : a / page_size ∉ v.seen := hseen a (List.mem_cons_self _ _)
    rw [List.map_cons, List.nodup_cons] at hnd
    rw [List.length_cons] at hlen
    have hnf : ¬ c ≤ v.order.length := by omega
    rw [h1, view_step_miss ha]
    simp only [hs, hnf, if_false]
    rw [ih _ hnd.2]
    · simp only [List.map_cons, List.reverse_cons, List.append_assoc, List.singleton_append,
        List.length_cons, View.mk.injEq, true_and, and_true]
      exact ⟨by omega, by omega, by omega⟩
    · intro x hx hmem
      rcases List.mem_cons.1 hmem with h2 | h2
      · exact hnd.1 (by rw [← h2]; exact List.mem_map_of_mem (· / page_size) hx)
      · exact hord x (List.mem_cons_of_mem _ hx) h2
    · intro x hx hmem
      rcases List.mem_cons.1 hmem with h2 | h2
      · exact hnd.1 (by rw [← h2]; exact List.mem_map_of_mem (· / page_size) hx)
      · exact hseen x (List.mem_cons_of_mem _ hx) h2
    · show (a / page_size :: v.order).length + rest.length ≤ c
      rw [List.length_cons]
      omega

theorem view_run_hit_pass (c page_size : Nat) (addrs : List Nat) (v : View)
    (hord : ∀ a ∈ addrs, a / page_size ∈ v.order) :
    (View.run c page_size v addrs).order.Perm v.order ∧
    (View.run c page_size v addrs).seen = v.seen ∧
    (View.run c page_size v addrs).accesses = v.accesses + addrs.length ∧
    (View.run c page_size v addrs).hits = v.hits + addrs.length ∧
    (View.run c page_size v addrs).misses = v.misses ∧
    (View.run c page_size v addrs).cold_misses = v.cold_misses ∧
    (View.run c page_size v addrs).capacity_misses = v.capacity_misses := by
  induction addrs generalizing v with
  | nil => simp [View.run]
  | cons a rest ih =>
    have h1 : View.run c page_size v (a :: rest)
        = View.run c page_size (View.step c page_size v a) rest := rfl
    have ha : a / page_size ∈ v.order := hord a (List.mem_cons_self _ _)
    have hperm : (a / page_size :: v.order.erase (a / page_size)).Perm v.order :=
      (List.perm_cons_erase ha).symm
    rw [h1, view_step_hit ha]
    obtain ⟨e1, e2, e3, e4, e5, e6, e7⟩ := ih
      { v with accesses := v.accesses + 1, hits := v.hits + 1,
               order := a / page_size :: v.order.erase (a / page_size) }
      (fun x hx => hperm.mem_iff.2 (hord x (List.mem_cons_of_mem _ hx)))
    refine ⟨e1.trans hperm, e2, ?_, ?_, e5, e6, e7⟩
    · rw [e3, List.length_cons]
      show v.accesses + 1 + rest.length = v.accesses + (rest.length + 1)
      omega
    · rw [e4, List.length_cons]
      show v.hits + 1 + rest.length = v.hits + (rest.length + 1)
      omega

theorem view_two_pass (c page_size : Nat) (addrs : List Nat) (hn : addrs.length ≤ c)
    (hd : (addrs.map (· / page_size)).Nodup) :
    (View.run c page_size View.fresh addrs).accesses = addrs.length ∧
    (View.run c page_size View.fresh addrs).hits = 0 ∧
    (View.run c page_size View.fresh addrs).misses = addrs.length ∧
    (View.run c page_size View.fresh addrs).cold_misses = addrs.length ∧
    (View.run c page_size View.fresh addrs).capacity_misses = 0 ∧
    (View.run c page_size (View.run c page_size View.fresh addrs) addrs).accesses
      = 2 * addrs.length ∧
    (View.run c page_size (View.run c page_size View.fresh addrs) addrs).hits
      = addrs.length ∧
    (View.run c page_size (View.run c page_size View.fresh addrs) addrs).misses
      = addrs.length ∧
    (View.run c page_size (View.run c page_size View.fresh addrs) addrs).cold_misses
      = addrs.length ∧
    (View.run c page_size (View.run c page_size View.fresh addrs) addrs).capacity_misses
      = 0 := by
  have hlen : View.fresh.order.length + addrs.length ≤ c := by
    rw [show View.fresh.order.length = 0 from rfl, Nat.zero_add]
    exact hn
  have hpass1 := view_run_cold_pass c page_size addrs View.fresh hd
    (fun _ _ h => List.not_mem_nil _ h) (fun _ _ h => List.not_mem_nil _ h) hlen
  have hord : ∀ a ∈ addrs, a / page_size ∈ (View.run c page_size View.fresh addrs).order := by
    intro a ha
    rw [hpass1]
    exact List.mem_append_left _ (List.mem_reverse.2 (List.mem_map_of_mem (· / page_size) ha))
  obtain ⟨_, _, e3, e4, e5, e6, e7⟩ :=
    view_run_hit_pass c page_size addrs (View.run c page_size View.fresh addrs) hord
  have a1 : (View.run c page_size View.fresh addrs).accesses = addrs.length := by
    rw [hpass1]
    exact Nat.zero_add _
  have a2 : (View.run c page_size View.fresh addrs).hits = 0 := by
    rw [hpass1]
    rfl
  have a3 : (View.run c page_size View.fresh addrs).misses = addrs.length := by
    rw [hpass1]
    exact Nat.zero_add _
  have a4 : (View.run c page_size View.fresh addrs).cold_misses = addrs.length := by
    rw [hpass1]
    exact Nat.zero_add _
  have a5 : (View.run c page_size View.fresh addrs).capacity_misses = 0 := by
    rw [hpass1]
    rfl
  refine ⟨a1, a2, a3, a4, a5, ?_, ?_, e5.trans a3, e6.trans a4, e7.trans a5⟩
  · rw [e3, a1, Nat.two_mul]
  · rw [e4, a2, Nat.zero_add]

/-- C9, counterexample: for the empty list of addresses (n = 0, within every capacity)
both passes make no access at all, and the hit rate of the final state is 0, not 50. -/
theorem C9_empty_run_hit_rate :
    ∃ s1 s2, (TLBSimulator.new 64 4096).access_all [] = .ok s1 ∧
      s1.access_all [] = .ok s2 ∧ s2.accesses = 0 ∧ s2.hit_rate = 0 ∧ s2.hit_rate ≠ 50 := by
  refine ⟨TLBSimulator.new 64 4096, TLBSimulator.new 64 4096, rfl, rfl, rfl, ?_, ?_⟩
  · simp [TLBSimulator.hit_rate, TLBSimulator.new]
  · simp [TLBSimulator.hit_rate, TLBSimulator.new]

theorem hit_rate_half (s : TLBSimulator) (n : Nat) (ha : s.accesses = 2 * n)
    (hh : s.hits = n) : s.hit_rate = if n = 0 then 0 else 50 := by
  unfold TLBSimulator.hit_rate
  rw [ha, hh]
  by_cases hz : n = 0
  · simp [hz]
  · have hpos : 2 * n > 0 := by omega
    have hq : (n : ℚ) ≠ 0 := by exact_mod_cast hz
    simp only [hpos, if_true, hz, if_false]
    push_cast
    field_simp
    ring

/-- C9, amended: for every capacity `c` at least 1, positive page size and list of `n ≤ c`
addresses with pairwise distinct page numbers, submitting the list to a fresh engine gives
`n` cold misses, no hit and no capacity miss; resubmitting the same list in the same order
gives `n` hits and no further miss, so that finally accesses = 2n, hits = n,
misses = cold_misses = n, capacity_misses = 0, and the hit rate is exactly 50 when
`n ≥ 1` (it is 0 when `n = 0`, as no access was made). -/
theorem C9_full_hit_run (c page_size : Nat) (hc : 1 ≤ c) (hp : 0 < page_size)
    (addrs : List Nat) (hn : addrs.length ≤ c)
    (hd : (addrs.map (· / page_size)).Nodup) :
    ∃ s1 s2, (TLBSimulator.new c page_size).access_all addrs = .ok s1 ∧
      s1.access_all addrs = .ok s2 ∧
      (TLBSimulator.new c page_size).access_all (addrs ++ addrs) = .ok s2 ∧
      s1.accesses = addrs.length ∧ s1.hits = 0 ∧ s1.misses = addrs.length ∧
      s1.cold_misses = addrs.length ∧ s1.capacity_misses = 0 ∧
      s2.accesses = 2 * addrs.length ∧ s2.hits = addrs.length ∧
      s2.misses = addrs.length ∧ s2.cold_misses = addrs.length ∧
      s2.capacity_misses = 0 ∧
      s2.hit_rate = if addrs.length = 0 then 0 else 50 := by
  obtain ⟨s1, h1, hinv1, hsz1, hps1, hview1⟩ := access_all_new hc hp addrs
  obtain ⟨s2, h2, _, _, _, hview2⟩ := access_all_sound hinv1 addrs
  rw [hsz1, hps1, hview1] at hview2
  obtain ⟨a1, a2, a3, a4, a5, b1, b2, b3, b4, b5⟩ := view_two_pass c page_size addrs hn hd
  rw [← hview1] at a1 a2 a3 a4 a5
  rw [← hview2] at b1 b2 b3 b4 b5
  refine ⟨s1, s2, h1, h2, ?_, a1, a2, a3, a4, a5, b1, b2, b3, b4, b5,
    hit_rate_half s2 addrs.length b1 b2⟩
  rw [access_all_append, h1]
  exact h2

/-- Witness of C9 (amended): capacity 64, page size 4096 and the 64 addresses
0, 4096, ..., 63 * 4096 of the pages 0 to 63. -/
theorem C9_full_hit_run_witness :
    (1 ≤ 64 ∧ 0 < 4096 ∧ ((List.range 64).map (· * 4096)).length ≤ 64 ∧
      (((List.range 64).map (· * 4096)).map (· / 4096)).Nodup) ∧
    ∃ s1 s2, (TLBSimulator.new 64 4096).access_all ((List.range 64).map (· * 4096)) = .ok s1 ∧
      s1.access_all ((List.range 64).map (· * 4096)) = .ok s2 ∧
      (TLBSimulator.new 64 4096).access_all
        ((List.range 64).map (· * 4096) ++ (List.range 64).map (· * 4096)) = .ok s2 ∧
      s1.accesses = ((List.range 64).map (· * 4096)).length ∧ s1.hits = 0 ∧
      s1.misses = ((List.range 64).map (· * 4096)).length ∧
      s1.cold_misses = ((List.range 64).map (· * 4096)).length ∧ s1.capacity_misses = 0 ∧
      s2.accesses = 2 * ((List.range 64).map (· * 4096)).length ∧
      s2.hits = ((List.range 64).map (· * 4096)).length ∧
      s2.misses = ((List.range 64).map (· * 4096)).length ∧
      s2.cold_misses = ((List.range 64).map (· * 4096)).length ∧
      s2.capacity_misses = 0 ∧
      s2.hit_rate = if ((List.range 64).map (· * 4096)).length = 0 then 0 else 50 :=
  have hn : ((List.range 64).map (· * 4096)).length ≤ 64 := by decide
  have hd : (((List.range 64).map (· * 4096)).map (· / 4096)).Nodup := by decide
  ⟨⟨by decide, by decide, hn, hd⟩,
    C9_full_hit_run 64 4096 (by decide) (by decide) ((List.range 64).map (· * 4096)) hn hd⟩

/-! ## Scenario: cycling through one page more than fits -/

theorem cyc_page_inj {c page_size : Nat} {cyc : List Nat} (hlen : cyc.length = c + 1)
    (hd : (cyc.map (· / page_size)).Nodup) {i j : Nat} (hi : i < c + 1) (hj : j < c + 1)
    (h : cyc.getD i 0 / page_size = cyc.getD j 0 / page_size) : i = j := by
  have hi1 : i < cyc.length := by omega
  have hj1 : j < cyc.length := by omega
  have hi2 : i < (cyc.map (· / page_size)).length := by rw [List.length_map]; exact hi1
  have hj2 : j < (cyc.map (· / page_size)).length := by rw [List.length_map]; exact hj1
  have heq : (cyc.map (· / page_size))[i] = (cyc.map (· / page_size))[j] := by
    rw [List.getElem_map, List.getElem_map, ← List.getD_eq_getElem cyc 0 hi1,
      ← List.getD_eq_getElem cyc 0 hj1]
    exact h
  exact hd.getElem_inj_iff.1 heq

theorem cycle_mod_ne {c m j : Nat} (hjc : j < c) (hjm : j < m) :
    (m - 1 - j) % (c + 1) ≠ m % (c + 1) := by
  intro h
  have h1 := Nat.sub_mod_eq_zero_of_mod_eq h.symm
  have h2 : m - (m - 1 - j) = j + 1 := by omega
  rw [h2, Nat.mod_eq_of_lt (by omega)] at h1
  omega

theorem cyclic_addresses_succ (cyc : List Nat) (m : Nat) :
    cyclic_addresses cyc (m + 1) = cyclic_addresses cyc m ++ [cyc.getD (m % cyc.length) 0] := by
  simp [cyclic_addresses, List.range_succ]

theorem cycle_order_push (g : Nat → Nat) (m k : Nat) :
    g m :: (List.range k).map (fun j => g (m - 1 - j)) =
      (List.range (k + 1)).map (fun j => g (m + 1 - 1 - j)) := by
  rw [List.range_succ_eq_map, List.map_cons, List.map_map]
  congr 1
  apply List.map_congr_left
  intro j _
  show g (m - 1 - j) = g (m + 1 - 1 - (j + 1))
  congr 1
  omega

theorem view_run_cycle {c page_size : Nat} (hc : 1 ≤ c) {cyc : List Nat}
    (hlen : cyc.length = c + 1) (hd : (cyc.map (· / page_size)).Nodup) (m : Nat) :
    (View.run c page_size View.fresh (cyclic_addresses cyc m)).order =
      (List.range (min m c)).map (fun j => cyc.getD ((m - 1 - j) % (c + 1)) 0 / page_size) ∧
    (∀ q, q ∈ (View.run c page_size View.fresh (cyclic_addresses cyc m)).seen ↔
      ∃ i, i < min m (c + 1) ∧ q = cyc.getD i 0 / page_size) ∧
    (View.run c page_size View.fresh (cyclic_addresses cyc m)).accesses = m ∧
    (View.run c page_size View.fresh (cyclic_addresses cyc m)).hits = 0 ∧
    (View.run c page_size View.fresh (cyclic_addresses cyc m)).misses = m ∧
    (View.run c page_size View.fresh (cyclic_addresses cyc m)).cold_misses = min m (c + 1) ∧
    (View.run c page_size View.fresh (cyclic_addresses cyc m)).capacity_misses =
      m - min m (c + 1) := by
  induction m with
  | zero =>
    refine ⟨by simp [cyclic_addresses, View.run, View.fresh], ?_, rfl, rfl, rfl, rfl, rfl⟩
    intro q
    simp [cyclic_addresses, View.run, View.fresh]
  | succ m ih =>
    obtain ⟨ho, hs, ha, hh, hm, hcold, hcap⟩ := ih
    rw [cyclic_addresses_succ, view_run_append]
    generalize View.run c page_size View.fresh (cyclic_addresses cyc m) = v at ho hs ha hh hm hcold hcap
    have hstep : View.run c page_size v [cyc.getD (m % cyc.length) 0]
        = View.step c page_size v (cyc.getD (m % cyc.length) 0) := rfl
    rw [hstep, hlen]
    have hmod : m % (c + 1) < c + 1 := Nat.mod_lt _ (by omega)
    have hnot : cyc.getD (m % (c + 1)) 0 / page_size ∉ v.order := by
      rw [ho]
      intro hmem
      obtain ⟨j, hj, heq⟩ := List.mem_map.1 hmem
      rw [List.mem_range] at hj
      have := cyc_page_inj hlen hd (Nat.mod_lt _ (by omega)) hmod heq
      exact cycle_mod_ne (by omega) (by omega) this
    have holen : v.order.length = min m c := by
      rw [ho, List.length_map, List.length_range]
    rw [view_step_miss hnot]
    refine ⟨?_, ?_, ?_, hh, ?_, ?_, ?_⟩
    · show cyc.getD (m % (c + 1)) 0 / page_size ::
          (if c ≤ v.order.length then v.order.dropLast else v.order) = _
      rw [holen]
      by_cases hcm : c ≤ m
      · obtain ⟨k, hk⟩ : ∃ k, c = k + 1 := ⟨c - 1, by omega⟩
        have h1 : min m c = k + 1 := by omega
        have h2 : min (m + 1) c = k + 1 := by omega
        have h3 : c ≤ min m c := by omega
        rw [if_pos h3, ho, h1, h2, List.range_succ, List.map_append, List.map_singleton,
          List.dropLast_concat, ← List.range_succ]
        exact cycle_order_push (fun i => cyc.getD (i % (c + 1)) 0 / page_size) m k
      · have h1 : min m c = m := by omega
        have h2 : min (m + 1) c = m + 1 := by omega
        have h3 : ¬ c ≤ min m c := by omega
        rw [if_neg h3, ho, h1, h2]
        exact cycle_order_push (fun i => cyc.getD (i % (c + 1)) 0 / page_size) m m
    · intro q
      show q ∈ (if cyc.getD (m % (c + 1)) 0 / page_size ∈ v.seen then v.seen
        else cyc.getD (m % (c + 1)) 0 / page_size :: v.seen) ↔ _
      by_cases hcm : c + 1 ≤ m
      · have hin : cyc.getD (m % (c + 1)) 0 / page_size ∈ v.seen :=
          (hs _).2 ⟨m % (c + 1), by omega, rfl⟩
        have h1 : min (m + 1) (c + 1) = min m (c + 1) := by omega
        rw [if_pos hin, h1]
        exact hs q
      · have hmm : m % (c + 1) = m := Nat.mod_eq_of_lt (by omega)
        have hnin : cyc.getD (m % (c + 1)) 0 / page_size ∉ v.seen := by
          intro hin
          obtain ⟨i, hi, heq⟩ := (hs _).1 hin
          have := cyc_page_inj hlen hd hmod (by omega) heq
          omega
        rw [if_neg hnin, List.mem_cons, hs q, hmm]
        constructor
        · rintro (h1 | ⟨i, hi, h1⟩)
          · exact ⟨m, by omega, h1⟩
          · exact ⟨i, by omega, h1⟩
        · rintro ⟨i, hi, h1⟩
          by_cases him : i = m
          · exact Or.inl (by rw [h1, him])
          · exact Or.inr ⟨i, by omega, h1⟩
    · show v.accesses + 1 = m + 1
      rw [ha]
    · show v.misses + 1 = m + 1
      rw [hm]
    · show (if cyc.getD (m % (c + 1)) 0 / page_size ∈ v.seen then v.cold_misses
        else v.cold_misses + 1) = _
      by_cases hcm : c + 1 ≤ m
      · have hin : cyc.getD (m % (c + 1)) 0 / page_size ∈ v.seen :=
          (hs _).2 ⟨m % (c + 1), by omega, rfl⟩
        rw [if_pos hin, hcold]
        omega
      · have hnin : cyc.getD (m % (c + 1)) 0 / page_size ∉ v.seen := by
          intro hin
          obtain ⟨i, hi, heq⟩ := (hs _).1 hin
          have := cyc_page_inj hlen hd hmod (by omega) heq
          have hmm : m % (c + 1) = m := Nat.mod_eq_of_lt (by omega)
          omega
        rw [if_neg hnin, hcold]
        omega
    · show (if cyc.getD (m % (c + 1)) 0 / page_size ∈ v.seen then v.capacity_misses + 1
        else v.capacity_misses) = _
      by_cases hcm : c + 1 ≤ m
      · have hin : cyc.getD (m % (c + 1)) 0 / page_size ∈ v.seen :=
          (hs _).2 ⟨m % (c + 1), by omega, rfl⟩
        rw [if_pos hin, hcap]
        omega
      · have hnin : cyc.getD (m % (c + 1)) 0 / page_size ∉ v.seen := by
          intro hin
          obtain ⟨i, hi, heq⟩ := (hs _).1 hin
          have := cyc_page_inj hlen hd hmod (by omega) heq
          have hmm : m % (c + 1) = m := Nat.mod_eq_of_lt (by omega)
          omega
        rw [if_neg hnin, hcap]
        omega

theorem access_all_cycle (c page_size : Nat) (hc : 1 ≤ c) (hp : 0 < page_size)
    (cyc : List Nat) (hlen : cyc.length = c + 1) (hd : (cyc.map (· / page_size)).Nodup)
    (m : Nat) :
    ∃ s, (TLBSimulator.new c page_size).access_all (cyclic_addresses cyc m) = .ok s ∧
      s.accesses = m ∧ s.hits = 0 ∧ s.misses = m ∧ s.cold_misses = min m (c + 1) ∧
      s.capacity_misses = m - min m (c + 1) := by
  obtain ⟨s, hrun, _, _, _, hview⟩ := access_all_new hc hp (cyclic_addresses cyc m)
  obtain ⟨_, _, ha, hh, hm, hcold, hcap⟩ := view_run_cycle hc hlen hd m
  rw [← hview] at ha hh hm hcold hcap
  exact ⟨s, hrun, ha, hh, hm, hcold, hcap⟩

/-- C10: for every capacity `c` at least 1 and positive page size, cycling through `c + 1`
addresses of pairwise distinct page numbers for `m` submissions on a fresh engine yields no
hit, `min m (c + 1)` cold misses and `m - min m (c + 1)` capacity misses.  In particular,
with capacity 2, page size 4096 and addresses `A`, `B`, `C` of distinct pages, after the
first `k ≤ 30` submissions of the cycle A, B, C, A, ... there is no hit, `min k 3` cold
misses (the first three submissions) and `k - min k 3` capacity misses (every later one),
and after all 30 submissions hits = 0, cold_misses = 3 and capacity_misses = 27. -/
theorem C10_thrashing (c page_size : Nat) (hc : 1 ≤ c) (hp : 0 < page_size)
    (cyc : List Nat) (hlen : cyc.length = c + 1) (hd : (cyc.map (· / page_size)).Nodup)
    (m : Nat) :
    (∃ s, (TLBSimulator.new c page_size).access_all (cyclic_addresses cyc m) = .ok s ∧
      s.accesses = m ∧ s.hits = 0 ∧ s.misses = m ∧ s.cold_misses = min m (c + 1) ∧
      s.capacity_misses = m - min m (c + 1)) ∧
    (∀ A B C : Nat, A / 4096 ≠ B / 4096 → A / 4096 ≠ C / 4096 → B / 4096 ≠ C / 4096 →
      (∀ k, k ≤ 30 →
        ∃ s, (TLBSimulator.new 2 4096).access_all (cyclic_addresses [A, B, C] k) = .ok s ∧
          s.hits = 0 ∧ s.cold_misses = min k 3 ∧ s.capacity_misses = k - min k 3) ∧
      ∃ s, (TLBSimulator.new 2 4096).access_all (cyclic_addresses [A, B, C] 30) = .ok s ∧
        s.accesses = 30 ∧ s.hits = 0 ∧ s.cold_misses = 3 ∧ s.capacity_misses = 27) := by
  refine ⟨access_all_cycle c page_size hc hp cyc hlen hd m, ?_⟩
  intro A B C hAB hAC hBC
  have hd3 : (([A, B, C] : List Nat).map (· / 4096)).Nodup := by
    simp [hAB, hAC, hBC]
  constructor
  · intro k _
    obtain ⟨s, hrun, _, hh, _, hcold, hcap⟩ :=
      access_all_cycle 2 4096 (by decide) (by decide) [A, B, C] rfl hd3 k
    exact ⟨s, hrun, hh, hcold, hcap⟩
  · obtain ⟨s, hrun, ha, hh, _, hcold, hcap⟩ :=
      access_all_cycle 2 4096 (by decide) (by decide) [A, B, C] rfl hd3 30
    exact ⟨s, hrun, ha, hh, hcold, hcap⟩

/-- Witness of C10: capacity 2, page size 4096, the cycle 0, 4096, 8192 (pages 0, 1, 2) and
30 submissions. -/
theorem C10_thrashing_witness :
    (1 ≤ 2 ∧ 0 < 4096 ∧ ([0, 4096, 8192] : List Nat).length = 2 + 1 ∧
      (([0, 4096, 8192] : List Nat).map (· / 4096)).Nodup) ∧
    ((∃ s, (TLBSimulator.new 2 4096).access_all (cyclic_addresses [0, 4096, 8192] 30) = .ok s ∧
      s.accesses = 30 ∧ s.hits = 0 ∧ s.misses = 30 ∧ s.cold_misses = min 30 (2 + 1) ∧
      s.capacity_misses = 30 - min 30 (2 + 1)) ∧
    (∀ A B C : Nat, A / 4096 ≠ B / 4096 → A / 4096 ≠ C / 4096 → B / 4096 ≠ C / 4096 →
      (∀ k, k ≤ 30 →
        ∃ s, (TLBSimulator.new 2 4096).access_all (cyclic_addresses [A, B, C] k) = .ok s ∧
          s.hits = 0 ∧ s.cold_misses = min k 3 ∧ s.capacity_misses = k - min k 3) ∧
      ∃ s, (TLBSimulator.new 2 4096).access_all (cyclic_addresses [A, B, C] 30) = .ok s ∧
        s.accesses = 30 ∧ s.hits = 0 ∧ s.cold_misses = 3 ∧ s.capacity_misses = 27)) :=
  ⟨by decide, C10_thrashing 2 4096 (by decide) (by decide) [0, 4096, 8192] (by decide)
    (by decide) 30⟩

/-! ## A fresh engine -/

/-- C13: a freshly constructed engine, for any capacity and page size and before any
`access_address` call, has accesses = hits = misses = cold_misses = capacity_misses = 0, an
empty recency list, an empty map and an empty seen-set (also as read through
`get_seen_pages`), and its hit rate is 0: the test `accesses > 0` of the hit-rate formula
fails, so the branch without division is taken. -/
theorem C13_fresh_engine_zero (c page_size : Nat) :
    (TLBSimulator.new c page_size).accesses = 0 ∧
    (TLBSimulator.new c page_size).hits = 0 ∧
    (TLBSimulator.new c page_size).misses = 0 ∧
    (TLBSimulator.new c page_size).cold_misses = 0 ∧
    (TLBSimulator.new c page_size).capacity_misses = 0 ∧
    (TLBSimulator.new c page_size).tlb_lru_order = [] ∧
    (TLBSimulator.new c page_size).tlb = [] ∧
    (TLBSimulator.new c page_size).seen_pages = [] ∧
    (TLBSimulator.new c page_size).get_seen_pages = [] ∧
    ¬ (TLBSimulator.new c page_size).accesses > 0 ∧
    (TLBSimulator.new c page_size).hit_rate = 0 := by
  refine ⟨rfl, rfl, rfl, rfl, rfl, rfl, rfl, rfl, rfl, ?_, ?_⟩
  · exact Nat.lt_irrefl 0
  · unfold TLBSimulator.hit_rate
    rw [if_neg]
    exact Nat.lt_irrefl 0

/-! ## Dependence on page numbers only -/

theorem access_address_congr (s : TLBSimulator) {a b : Nat}
    (h : a / s.page_size = b / s.page_size) : s.access_address a = s.access_address b := by
  unfold TLBSimulator.access_address
  simp only [h]

theorem access_all_congr (xs ys : List Nat) (s : TLBSimulator) (hinv : s.Inv)
    (h : xs.map (· / s.page_size) = ys.map (· / s.page_size)) (k : Nat) :
    s.access_all (xs.take k) = s.access_all (ys.take k) := by
  induction xs generalizing ys s k with
  | nil =>
    cases ys with
    | nil => rfl
    | cons y ys => simp at h
  | cons x xs ih =>
    cases ys with
    | nil => simp at h
    | cons y ys =>
      simp only [List.map_cons, List.cons.injEq] at h
      cases k with
      | zero => rfl
      | succ k =>
        obtain ⟨s1, h1, hinv1, _, hps1, _⟩ := access_address_sound hinv y
        simp only [List.take_succ_cons, TLBSimulator.access_all,
          access_address_congr s h.1, h1]
        exact ih ys s1 hinv1 (by rw [hps1]; exact h.2) k

/-- C19: for every capacity at least 1 and positive page size, two address sequences whose
page numbers `address / page_size` agree position by position (hence of equal length) drive
a fresh engine through the same states: after each number `k` of submissions both runs
succeed with the same five counters, the same recency ordering and the same seen-set; the
two engine states are in fact equal as a whole. -/
theorem C19_depends_on_pages_only (c page_size : Nat) (hc : 1 ≤ c) (hp : 0 < page_size)
    (xs ys : List Nat) (hlen : xs.length = ys.length)
    (hpages : ∀ i, (xs.getD i 0) / page_size = (ys.getD i 0) / page_size) (k : Nat) :
    ∃ s t, (TLBSimulator.new c page_size).access_all (xs.take k) = .ok s ∧
      (TLBSimulator.new c page_size).access_all (ys.take k) = .ok t ∧
      t.accesses = s.accesses ∧ t.hits = s.hits ∧ t.misses = s.misses ∧
      t.cold_misses = s.cold_misses ∧ t.capacity_misses = s.capacity_misses ∧
      t.resident = s.resident ∧ t.get_seen_pages = s.get_seen_pages ∧ t = s := by
  have hmap : xs.map (· / page_size) = ys.map (· / page_size) := by
    apply List.ext_getElem
    · simp [hlen]
    · intro i h1 h2
      rw [List.length_map] at h1 h2
      rw [List.getElem_map, List.getElem_map, ← List.getD_eq_getElem xs 0 h1,
        ← List.getD_eq_getElem ys 0 h2]
      exact hpages i
  obtain ⟨s, hs, _⟩ := access_all_new hc hp (xs.take k)
  have heq := access_all_congr xs ys (TLBSimulator.new c page_size) (new_inv hc hp) hmap k
  rw [hs] at heq
  exact ⟨s, s, hs, heq.symm, rfl, rfl, rfl, rfl, rfl, rfl, rfl, rfl⟩

/-- Witness of C19: capacity 2, page size 4096, two runs over the pages 0, 1, 0, 2 through
different offsets, compared after three submissions. -/
theorem C19_depends_on_pages_only_witness :
    (1 ≤ 2 ∧ 0 < 4096 ∧ ([0, 4096, 1, 8192] : List Nat).length
        = ([7, 5000, 4095, 9000] : List Nat).length ∧
      ∀ i, (([0, 4096, 1, 8192] : List Nat).getD i 0) / 4096
        = (([7, 5000, 4095, 9000] : List Nat).getD i 0) / 4096) ∧
    ∃ s t, (TLBSimulator.new 2 4096).access_all (([0, 4096, 1, 8192] : List Nat).take 3)
        = .ok s ∧
      (TLBSimulator.new 2 4096).access_all (([7, 5000, 4095, 9000] : List Nat).take 3)
        = .ok t ∧
      t.accesses = s.accesses ∧ t.hits = s.hits ∧ t.misses = s.misses ∧
      t.cold_misses = s.cold_misses ∧ t.capacity_misses = s.capacity_misses ∧
      t.resident = s.resident ∧ t.get_seen_pages = s.get_seen_pages ∧ t = s :=
  have hpg : ∀ i, (([0, 4096, 1, 8192] : List Nat).getD i 0) / 4096
      = (([7, 5000, 4095, 9000] : List Nat).getD i 0) / 4096 := by
    intro i
    rcases i with _ | _ | _ | _ | _ | i <;> simp
  ⟨⟨by decide, by decide, rfl, hpg⟩,
    C19_depends_on_pages_only 2 4096 (by decide) (by decide) [0, 4096, 1, 8192]
      [7, 5000, 4095, 9000] rfl hpg 3⟩

/-! ## Accesses within one page -/

theorem view_run_one_page (c page_size k : Nat) (a : Nat) (rest : List Nat)
    (ha : a / page_size = k) (hrest : ∀ x ∈ rest, x / page_size = k) :
    (View.step c page_size View.fresh a).cold_misses = 1 ∧
    (View.step c page_size View.fresh a).misses = 1 ∧
    (View.run c page_size View.fresh (a :: rest)).accesses = rest.length + 1 ∧
    (View.run c page_size View.fresh (a :: rest)).hits = rest.length ∧
    (View.run c page_size View.fresh (a :: rest)).misses = 1 ∧
    (View.run c page_size View.fresh (a :: rest)).cold_misses = 1 ∧
    (View.run c page_size View.fresh (a :: rest)).capacity_misses = 0 := by
  have hfresh : a / page_size ∉ View.fresh.order := List.not_mem_nil _
  have hseen : a / page_size ∉ View.fresh.seen := List.not_mem_nil _
  have hstep := @view_step_miss c page_size View.fresh a hfresh
  simp only [hseen, if_false] at hstep
  have hord : ∀ x ∈ rest, x / page_size ∈ (View.step c page_size View.fresh a).order := by
    intro x hx
    rw [hrest x hx, ← ha]
    exact view_step_head _ _ _ _
  obtain ⟨_, _, e3, e4, e5, e6, e7⟩ :=
    view_run_hit_pass c page_size rest (View.step c page_size View.fresh a) hord
  have h1 : View.run c page_size View.fresh (a :: rest)
      = View.run c page_size (View.step c page_size View.fresh a) rest := rfl
  rw [h1, e3, e4, e5, e6, e7, hstep]
  refine ⟨rfl, rfl, ?_, ?_, rfl, rfl, rfl⟩
  · show 0 + 1 + rest.length = rest.length + 1
    omega
  · show 0 + rest.length = rest.length
    omega

/-- C11: for every engine built with capacity at least 1 and a positive page size and every
non-empty sequence of `m` addresses that all lie in the page-size aligned span
`[k * page_size, (k + 1) * page_size)`, every address maps to the page number `k`, and
submitting the sequence to a fresh engine succeeds with exactly one cold miss, which is the
first submission, no capacity miss and `m - 1` hits. -/
theorem C11_single_page_span (c page_size : Nat) (hc : 1 ≤ c) (hp : 0 < page_size)
    (k : Nat) (addrs : List Nat) (hne : addrs ≠ [])
    (hspan : ∀ a ∈ addrs, k * page_size ≤ a ∧ a < (k + 1) * page_size) :
    (∀ a ∈ addrs, a / page_size = k) ∧
    ∃ s1 s, (TLBSimulator.new c page_size).access_all (addrs.take 1) = .ok s1 ∧
      s1.cold_misses = 1 ∧ s1.misses = 1 ∧
      (TLBSimulator.new c page_size).access_all addrs = .ok s ∧
      s.accesses = addrs.length ∧ s.cold_misses = 1 ∧ s.capacity_misses = 0 ∧
      s.misses = 1 ∧ s.hits = addrs.length - 1 := by
  have hpage : ∀ a ∈ addrs, a / page_size = k := fun a ha =>
    Nat.div_eq_of_lt_le (hspan a ha).1 (hspan a ha).2
  refine ⟨hpage, ?_⟩
  cases addrs with
  | nil => exact absurd rfl hne
  | cons a rest =>
    obtain ⟨s1, h1, _, _, _, hview1⟩ := access_all_new hc hp [a]
    obtain ⟨s, h, _, _, _, hview⟩ := access_all_new hc hp (a :: rest)
    obtain ⟨f1, f2, e1, e2, e3, e4, e5⟩ := view_run_one_page c page_size k a rest
      (hpage a (List.mem_cons_self _ _)) (fun x hx => hpage x (List.mem_cons_of_mem _ hx))
    have hv1 : s1.view = View.step c page_size View.fresh a := hview1
    rw [← hv1] at f1 f2
    rw [← hview] at e1 e2 e3 e4 e5
    exact ⟨s1, s, h1, f1, f2, h, e1, e4, e5, e3, e2⟩

/-- Witness of C11: capacity 1, page size 4096 and four addresses inside page 2. -/
theorem C11_single_page_span_witness :
    (1 ≤ 1 ∧ 0 < 4096 ∧ ([8192, 8200, 12287, 9000] : List Nat) ≠ [] ∧
      ∀ a ∈ ([8192, 8200, 12287, 9000] : List Nat), 2 * 4096 ≤ a ∧ a < (2 + 1) * 4096) ∧
    ((∀ a ∈ ([8192, 8200, 12287, 9000] : List Nat), a / 4096 = 2) ∧
    ∃ s1 s, (TLBSimulator.new 1 4096).access_all
        (([8192, 8200, 12287, 9000] : List Nat).take 1) = .ok s1 ∧
      s1.cold_misses = 1 ∧ s1.misses = 1 ∧
      (TLBSimulator.new 1 4096).access_all [8192, 8200, 12287, 9000] = .ok s ∧
      s.accesses = ([8192, 8200, 12287, 9000] : List Nat).length ∧ s.cold_misses = 1 ∧
      s.capacity_misses = 0 ∧ s.misses = 1 ∧
      s.hits = ([8192, 8200, 12287, 9000] : List Nat).length - 1) :=
  ⟨by decide, C11_single_page_span 1 4096 (by decide) (by decide) 2 [8192, 8200, 12287, 9000]
    (by decide) (by decide)⟩

/-! ## Absence of undefined operations -/

theorem inv_back_defined {s : TLBSimulator} (hinv : s.Inv) (hfull : s.tlb_size ≤ s.tlb.length) :
    ∃ n, s.tlb_lru_order.getLast? = some n ∧ s.tlb_lru_order ≠ [] ∧
      list_back s.tlb_lru_order = .ok n.val ∧
      list_pop_back s.tlb_lru_order = .ok s.tlb_lru_order.dropLast ∧
      (n.val, n.id) ∈ s.tlb := by
  have hlen : s.tlb.length = s.tlb_lru_order.length := by
    rw [hinv.map_perm.length_eq, List.length_map]
  have hc := hinv.cap_pos
  rcases List.eq_nil_or_concat s.tlb_lru_order with hnil | ⟨init, b, hcat⟩
  · rw [hlen, hnil] at hfull
    simp at hfull
    omega
  · rw [List.concat_eq_append] at hcat
    have hmem : b ∈ s.tlb_lru_order := by rw [hcat]; simp
    refine ⟨b, by rw [hcat, List.getLast?_concat], by rw [hcat]; simp, ?_, ?_, ?_⟩
    · simp [list_back, hcat]
    · rw [hcat]
      cases init <;> rfl
    · rw [hinv.map_perm.mem_iff]
      exact List.mem_map_of_mem (fun n => (n.val, n.id)) hmem

/-- C12: in every state reached from an engine built with capacity at least 1 and a
positive page size, a call of `access_address` with any address completes (it returns a
state, no fault): the divisor `page_size` of `address / page_size` is not 0, and whenever
the eviction test `tlb.size() >= tlb_size` holds, the recency list is non-empty, so that
`back()` and `pop_back()` are defined, and the page `back()` returns is a key of the map,
stored with the identity of the last list node. -/
theorem C12_access_address_defined (c page_size : Nat) (hc : 1 ≤ c) (hp : 0 < page_size)
    (addrs : List Nat) (a : Nat) :
    ∃ s s1, (TLBSimulator.new c page_size).access_all addrs = .ok s ∧
      s.access_address a = .ok s1 ∧
      s.page_size ≠ 0 ∧
      (s.tlb_size ≤ s.tlb.length →
        ∃ n, s.tlb_lru_order.getLast? = some n ∧ s.tlb_lru_order ≠ [] ∧
          list_back s.tlb_lru_order = .ok n.val ∧
          list_pop_back s.tlb_lru_order = .ok s.tlb_lru_order.dropLast ∧
          (n.val, n.id) ∈ s.tlb ∧ n.val ∈ s.tlb.map Prod.fst ∧
          umap_find s.tlb n.val = some n.id) := by
  obtain ⟨s, hrun, hinv, _, _, _⟩ := access_all_new hc hp addrs
  obtain ⟨s1, hstep, _⟩ := access_address_sound hinv a
  refine ⟨s, s1, hrun, hstep, Nat.pos_iff_ne_zero.1 hinv.page_pos, ?_⟩
  intro hfull
  obtain ⟨n, h1, h2, h3, h4, h5⟩ := inv_back_defined hinv hfull
  refine ⟨n, h1, h2, h3, h4, h5, List.mem_map_of_mem Prod.fst h5, ?_⟩
  have hn : n ∈ s.tlb_lru_order := List.mem_of_getLast?_eq_some h1
  obtain ⟨m, hm, hval, hfind⟩ := inv_find_resident hinv (List.mem_map_of_mem Node.val hn)
  have : m = n := List.inj_on_of_nodup_map hinv.vals_nodup hm hn hval
  rw [hfind, this]

/-- Witness of C12: capacity 2, page size 4096, a full cache and a further page. -/
theorem C12_access_address_defined_witness :
    (1 ≤ 2 ∧ 0 < 4096) ∧
    ∃ s s1, (TLBSimulator.new 2 4096).access_all [0, 4096, 1] = .ok s ∧
      s.access_address 8192 = .ok s1 ∧
      s.page_size ≠ 0 ∧
      (s.tlb_size ≤ s.tlb.length →
        ∃ n, s.tlb_lru_order.getLast? = some n ∧ s.tlb_lru_order ≠ [] ∧
          list_back s.tlb_lru_order = .ok n.val ∧
          list_pop_back s.tlb_lru_order = .ok s.tlb_lru_order.dropLast ∧
          (n.val, n.id) ∈ s.tlb ∧ n.val ∈ s.tlb.map Prod.fst ∧
          umap_find s.tlb n.val = some n.id) :=
  ⟨by decide, C12_access_address_defined 2 4096 (by decide) (by decide) [0, 4096, 1] 8192⟩

/-! ## The seen-set -/

/-- C14: for every engine built with capacity at least 1 and a positive page size, after
every sequence of submissions `seen_pages` (as returned by `get_seen_pages`) holds exactly
the page numbers `address / page_size` of the addresses submitted so far, each once, and
`cold_misses` equals its cardinality, the number of distinct page numbers submitted. -/
theorem C14_seen_pages_exact (c page_size : Nat) (hc : 1 ≤ c) (hp : 0 < page_size)
    (addrs : List Nat) :
    ∃ s, (TLBSimulator.new c page_size).access_all addrs = .ok s ∧
      (∀ q, q ∈ s.get_seen_pages ↔ ∃ a ∈ addrs, a / page_size = q) ∧
      s.get_seen_pages.Nodup ∧
      s.get_seen_pages.toFinset = (addrs.map (· / page_size)).toFinset ∧
      s.cold_misses = s.get_seen_pages.length ∧
      s.cold_misses = (addrs.map (· / page_size)).toFinset.card := by
  obtain ⟨s, hrun, _, _, _, hview⟩ := access_all_new hc hp addrs
  have hg : s.view.Good := by
    rw [hview]
    exact view_run_good view_fresh_good _
  have hmem : ∀ q, q ∈ s.seen_pages ↔ ∃ a ∈ addrs, a / page_size = q := by
    intro q
    have := view_run_seen c page_size view_fresh_good addrs q
    rw [← hview] at this
    simpa [View.fresh] using this
  have hnd : s.seen_pages.Nodup := hg.seen_nodup
  have hcold : s.cold_misses = s.seen_pages.length := hg.cold_seen
  have hfin : s.seen_pages.toFinset = (addrs.map (· / page_size)).toFinset := by
    ext q
    rw [List.mem_toFinset, List.mem_toFinset, hmem q, List.mem_map]
  refine ⟨s, hrun, hmem, hnd, hfin, hcold, ?_⟩
  rw [hcold, ← hfin, List.toFinset_card_of_nodup hnd]

/-- Witness of C14: capacity 1, page size 4096, five submissions over three pages. -/
theorem C14_seen_pages_exact_witness :
    (1 ≤ 1 ∧ 0 < 4096) ∧
    ∃ s, (TLBSimulator.new 1 4096).access_all [0, 4096, 100, 8192, 4097] = .ok s ∧
      (∀ q, q ∈ s.get_seen_pages ↔ ∃ a ∈ [0, 4096, 100, 8192, 4097], a / 4096 = q) ∧
      s.get_seen_pages.Nodup ∧
      s.get_seen_pages.toFinset
        = (([0, 4096, 100, 8192, 4097] : List Nat).map (· / 4096)).toFinset ∧
      s.cold_misses = s.get_seen_pages.length ∧
      s.cold_misses = (([0, 4096, 100, 8192, 4097] : List Nat).map (· / 4096)).toFinset.card :=
  ⟨by decide, C14_seen_pages_exact 1 4096 (by decide) (by decide) [0, 4096, 100, 8192, 4097]⟩

/-! ## The effect of a hit -/

theorem access_address_hit_state {s : TLBSimulator} (h : s.Inv) (a : Nat)
    (hp : a / s.page_size ∈ s.resident) :
    ∃ n, n ∈ s.tlb_lru_order ∧ n.val = a / s.page_size ∧
      s.access_address a = .ok { s with accesses := s.accesses + 1, hits := s.hits + 1,
                                        tlb_lru_order := n :: s.tlb_lru_order.erase n } := by
  obtain ⟨n, hn, hval, hfind⟩ := inv_find_resident h hp
  have hps : s.page_size ≠ 0 := Nat.pos_iff_ne_zero.1 h.page_pos
  refine ⟨n, hn, hval, ?_⟩
  simp [TLBSimulator.access_address, hps, hfind, list_splice_front_ok h.ids_nodup hn]

/-- C15: in every state `s` reached from an engine built with capacity at least 1 and a
positive page size in which the page `p` of the submitted address is resident,
`access_address` succeeds, raises `accesses` and `hits` by exactly 1, leaves `misses`,
`cold_misses`, `capacity_misses` and `seen_pages` unchanged, leaves the map and hence the
set of resident pages unchanged (nothing is evicted), and the new recency ordering is `p`
followed by the old ordering with `p` removed, all other pages in their old relative
order. -/
theorem C15_hit_frame (c page_size : Nat) (hc : 1 ≤ c) (hp : 0 < page_size)
    (addrs : List Nat) (a : Nat) (s : TLBSimulator)
    (hs : (TLBSimulator.new c page_size).access_all addrs = .ok s)
    (hres : a / page_size ∈ s.resident) :
    ∃ s1, s.access_address a = .ok s1 ∧
      s1.accesses = s.accesses + 1 ∧ s1.hits = s.hits + 1 ∧
      s1.misses = s.misses ∧ s1.cold_misses = s.cold_misses ∧
      s1.capacity_misses = s.capacity_misses ∧ s1.seen_pages = s.seen_pages ∧
      s1.tlb = s.tlb ∧ s1.tlb_size = s.tlb_size ∧ s1.page_size = s.page_size ∧
      (∀ q, q ∈ s1.resident ↔ q ∈ s.resident) ∧
      s1.resident.length = s.resident.length ∧
      s1.resident = a / page_size :: s.resident.erase (a / page_size) ∧
      s1.resident = a / page_size :: s.resident.filter (· ≠ a / page_size) := by
  obtain ⟨s0, hrun, hinv, _, hps, _⟩ := access_all_new hc hp addrs
  rw [hs] at hrun
  cases hrun
  rw [← hps] at hres
  obtain ⟨n, hn, hval, hstep⟩ := access_address_hit_state hinv a hres
  have hord : (n :: s.tlb_lru_order.erase n).map Node.val
      = a / page_size :: s.resident.erase (a / page_size) := by
    rw [List.map_cons, map_val_erase hinv.vals_nodup hn, hval, hps]
    rfl
  have hperm : (a / page_size :: s.resident.erase (a / page_size)).Perm s.resident := by
    rw [← hps]
    exact (List.perm_cons_erase hres).symm
  have hnd : s.resident.Nodup := hinv.vals_nodup
  refine ⟨_, hstep, rfl, rfl, rfl, rfl, rfl, rfl, rfl, rfl, rfl, ?_, ?_, hord, ?_⟩
  · intro q
    show q ∈ (n :: s.tlb_lru_order.erase n).map Node.val ↔ _
    rw [hord]
    exact hperm.mem_iff
  · show ((n :: s.tlb_lru_order.erase n).map Node.val).length = _
    rw [hord]
    exact hperm.length_eq
  · show (n :: s.tlb_lru_order.erase n).map Node.val = _
    rw [hord, hnd.erase_eq_filter]
    congr 1
    apply List.filter_congr
    intro x _
    by_cases hx : x = a / page_size <;> simp [hx]

/-- Witness of C15: capacity 2, page size 4096; after the submissions 0 and 4096 the pages
1 and 0 are resident and address 100 (page 0) is submitted. -/
theorem C15_hit_frame_witness :
    (1 ≤ 2 ∧ 0 < 4096 ∧
      (TLBSimulator.new 2 4096).access_all [0, 4096] = .ok
        { tlb_size := 2, page_size := 4096,
          tlb_lru_order := [{ id := 2, val := 1 }, { id := 1, val := 0 }],
          tlb := [(1, 2), (0, 1)], seen_pages := [1, 0], accesses := 2, hits := 0,
          misses := 2, cold_misses := 2, capacity_misses := 0 } ∧
      100 / 4096 ∈ TLBSimulator.resident
        { tlb_size := 2, page_size := 4096,
          tlb_lru_order := [{ id := 2, val := 1 }, { id := 1, val := 0 }],
          tlb := [(1, 2), (0, 1)], seen_pages := [1, 0], accesses := 2, hits := 0,
          misses := 2, cold_misses := 2, capacity_misses := 0 }) ∧
    ∃ s1, TLBSimulator.access_address
        { tlb_size := 2, page_size := 4096,
          tlb_lru_order := [{ id := 2, val := 1 }, { id := 1, val := 0 }],
          tlb := [(1, 2), (0, 1)], seen_pages := [1, 0], accesses := 2, hits := 0,
          misses := 2, cold_misses := 2, capacity_misses := 0 } 100 = .ok s1 ∧
      s1.accesses = 2 + 1 ∧ s1.hits = 0 + 1 ∧ s1.misses = 2 ∧ s1.cold_misses = 2 ∧
      s1.capacity_misses = 0 ∧ s1.seen_pages = [1, 0] ∧ s1.tlb = [(1, 2), (0, 1)] ∧
      s1.tlb_size = 2 ∧ s1.page_size = 4096 ∧
      (∀ q, q ∈ s1.resident ↔ q ∈ [1, 0]) ∧
      s1.resident.length = 2 ∧
      s1.resident = 100 / 4096 :: [1, 0].erase (100 / 4096) ∧
      s1.resident = 100 / 4096 :: [1, 0].filter (· ≠ 100 / 4096) :=
  ⟨⟨by decide, by decide, rfl, by decide⟩,
    C15_hit_frame 2 4096 (by decide) (by decide) [0, 4096] 100 _ rfl (by decide)⟩

/-! ## The number of resident pages -/

theorem view_fresh_tight (c : Nat) : View.Tight c View.fresh :=
  ⟨view_fresh_good, List.nodup_nil, by simp [View.fresh]⟩

theorem nodup_subset_lt {l m : List Nat} {p : Nat} (hl : l.Nodup) (hsub : ∀ q ∈ l, q ∈ m)
    (hp : p ∈ m) (hnp : p ∉ l) : l.length < m.length := by
  have hnd : (p :: l).Nodup := List.nodup_cons.2 ⟨hnp, hl⟩
  have hsub2 : (p :: l) ⊆ m := by
    intro q hq
    rcases List.mem_cons.1 hq with h | h
    · rw [h]; exact hp
    · exact hsub q h
  have := (List.subperm_of_subset hnd hsub2).length_le
  rw [List.length_cons] at this
  omega

theorem view_step_tight {c page_size : Nat} (hc : 1 ≤ c) {v : View} (h : View.Tight c v)
    (a : Nat) : View.Tight c (View.step c page_size v a) := by
  refine ⟨view_step_good h.good a, ?_, ?_⟩
  · by_cases hp : a / page_size ∈ v.order
    · rw [view_step_hit hp]
      exact ((List.perm_cons_erase hp).nodup_iff).1 h.order_nodup
    · rw [view_step_miss hp]
      show (a / page_size :: (if c ≤ v.order.length then v.order.dropLast else v.order)).Nodup
      rw [List.nodup_cons]
      constructor
      · intro hmem
        split at hmem
        · exact hp (List.dropLast_subset _ hmem)
        · exact hp hmem
      · split
        · exact h.order_nodup.sublist (List.dropLast_sublist _)
        · exact h.order_nodup
  · have hfill := h.fill
    by_cases hp : a / page_size ∈ v.order
    · rw [view_step_hit hp]
      show (a / page_size :: v.order.erase (a / page_size)).length = min c v.seen.length
      rw [(List.perm_cons_erase hp).symm.length_eq]
      exact hfill
    · rw [view_step_miss hp]
      by_cases hs : a / page_size ∈ v.seen
      · have hlt := nodup_subset_lt h.order_nodup h.good.resident_seen hs hp
        have hfull : c ≤ v.order.length := by omega
        show (a / page_size :: (if c ≤ v.order.length then v.order.dropLast else v.order)).length
          = min c (if a / page_size ∈ v.seen then v.seen else a / page_size :: v.seen).length
        rw [if_pos hfull, if_pos hs, List.length_cons, List.length_dropLast]
        omega
      · show (a / page_size :: (if c ≤ v.order.length then v.order.dropLast else v.order)).length
          = min c (if a / page_size ∈ v.seen then v.seen else a / page_size :: v.seen).length
        rw [if_neg hs, List.length_cons, List.length_cons]
        split
        · rw [List.length_dropLast]
          omega
        · omega

theorem view_run_tight {c page_size : Nat} (hc : 1 ≤ c) {v : View} (h : View.Tight c v)
    (addrs : List Nat) : View.Tight c (View.run c page_size v addrs) := by
  induction addrs generalizing v with
  | nil => exact h
  | cons a rest ih => exact ih (view_step_tight hc h a)

theorem view_step_evicts {c page_size : Nat} {v : View} {a q : Nat} (hq : q ∈ v.order)
    (hq1 : q ∉ (View.step c page_size v a).order) :
    a / page_size ∉ v.order ∧ a / page_size ≠ q ∧ c ≤ v.order.length ∧
      v.order.getLast? = some q := by
  by_cases hp : a / page_size ∈ v.order
  · exfalso
    rw [view_step_hit hp] at hq1
    exact hq1 ((List.perm_cons_erase hp).mem_iff.1 hq)
  · rw [view_step_miss hp] at hq1
    have hq2 : q ∉ a / page_size :: (if c ≤ v.order.length then v.order.dropLast else v.order) :=
      hq1
    rw [List.mem_cons, not_or] at hq2
    refine ⟨hp, fun h => hp (h ▸ hq), ?_, ?_⟩
    · by_contra hn
      rw [if_neg hn] at hq2
      exact hq2.2 hq
    · have hfull : c ≤ v.order.length := by
        by_contra hn
        rw [if_neg hn] at hq2
        exact hq2.2 hq
      rw [if_pos hfull] at hq2
      rcases List.eq_nil_or_concat v.order with hnil | ⟨init, b, hcat⟩
      · rw [hnil] at hq
        exact absurd hq (List.not_mem_nil _)
      · rw [List.concat_eq_append] at hcat
        rw [hcat, List.dropLast_concat] at hq2
        rw [hcat, List.mem_append, List.mem_singleton] at hq
        rcases hq with h1 | h1
        · exact absurd h1 hq2.2
        · rw [hcat, List.getLast?_concat, h1]

/-- C18: for every engine built with capacity `c` at least 1 and a positive page size,
after every sequence of submissions the number of resident entries (size of the map,
length of the list) is `min c cold_misses`, which is `c` or the number of distinct page
numbers submitted so far, whichever is smaller.  A further `access_address` call never
lowers that number, removes a resident page only when exactly `c` pages are resident and
the call is a miss, and removes at most one page, the one at the back of the list. -/
theorem C18_resident_count (c page_size : Nat) (hc : 1 ≤ c) (hp : 0 < page_size)
    (addrs : List Nat) (a : Nat) :
    ∃ s s1, (TLBSimulator.new c page_size).access_all addrs = .ok s ∧
      s.access_address a = .ok s1 ∧
      s.tlb.length = min c s.cold_misses ∧
      s.tlb_lru_order.length = min c s.cold_misses ∧
      s.tlb.length = min c (addrs.map (· / page_size)).toFinset.card ∧
      s.tlb.length ≤ s1.tlb.length ∧
      (∀ q, q ∈ s.resident → q ∉ s1.resident →
        s.tlb.length = c ∧ s1.misses = s.misses + 1 ∧
        (s.tlb_lru_order.getLast?).map Node.val = some q) ∧
      (∀ q r, q ∈ s.resident → q ∉ s1.resident → r ∈ s.resident → r ∉ s1.resident →
        q = r) := by
  obtain ⟨s, hrun, hinv, hsz, hps, hview⟩ := access_all_new hc hp addrs
  obtain ⟨s1, hstep, hinv1, _, _, hview1⟩ := access_address_sound hinv a
  rw [hsz, hps] at hview1
  have ht : View.Tight c s.view := by
    rw [hview]
    exact view_run_tight hc (view_fresh_tight c) addrs
  have ht1 : View.Tight c s1.view := by
    rw [hview1]
    exact view_step_tight hc ht a
  have hlen : s.tlb.length = s.tlb_lru_order.length := by
    rw [hinv.map_perm.length_eq, List.length_map]
  have hlen1 : s1.tlb.length = s1.tlb_lru_order.length := by
    rw [hinv1.map_perm.length_eq, List.length_map]
  have hfill : s.tlb_lru_order.length = min c s.cold_misses := by
    have h1 : s.resident.length = min c s.seen_pages.length := ht.fill
    have h2 : s.cold_misses = s.seen_pages.length := ht.good.cold_seen
    rw [h2, ← h1]
    simp [TLBSimulator.resident]
  have hfill1 : s1.tlb_lru_order.length = min c s1.cold_misses := by
    have h1 : s1.resident.length = min c s1.seen_pages.length := ht1.fill
    have h2 : s1.cold_misses = s1.seen_pages.length := ht1.good.cold_seen
    rw [h2, ← h1]
    simp [TLBSimulator.resident]
  have hcard : s.cold_misses = (addrs.map (· / page_size)).toFinset.card := by
    have hnd : s.seen_pages.Nodup := ht.good.seen_nodup
    have h2 : s.cold_misses = s.seen_pages.length := ht.good.cold_seen
    have hfin : s.seen_pages.toFinset = (addrs.map (· / page_size)).toFinset := by
      ext q
      have := view_run_seen c page_size view_fresh_good addrs q
      rw [← hview] at this
      rw [List.mem_toFinset, List.mem_toFinset, List.mem_map]
      simpa [View.fresh] using this
    rw [h2, ← hfin, List.toFinset_card_of_nodup hnd]
  have hmono : s.cold_misses ≤ s1.cold_misses := by
    have h1 : s1.cold_misses = (View.step c page_size s.view a).cold_misses := by
      rw [← hview1]; rfl
    rw [h1]
    by_cases hpo : a / page_size ∈ s.view.order
    · rw [view_step_hit hpo]
      exact Nat.le_refl _
    · rw [view_step_miss hpo]
      show s.cold_misses ≤ if a / page_size ∈ s.view.seen then s.view.cold_misses
        else s.view.cold_misses + 1
      split
      · exact Nat.le_refl _
      · exact Nat.le_succ _
  have hev : ∀ q, q ∈ s.resident → q ∉ s1.resident →
      a / page_size ∉ s.view.order ∧ c ≤ s.resident.length ∧
        s.resident.getLast? = some q := by
    intro q hq hq1
    have hq2 : q ∉ (View.step c page_size s.view a).order := by
      rw [← hview1]; exact hq1
    obtain ⟨h1, _, h3, h4⟩ := view_step_evicts hq hq2
    exact ⟨h1, h3, h4⟩
  refine ⟨s, s1, hrun, hstep, by rw [hlen, hfill], hfill, by rw [hlen, hfill, hcard], ?_,
    ?_, ?_⟩
  · rw [hlen, hlen1, hfill, hfill1]
    omega
  · intro q hq hq1
    obtain ⟨h1, h3, h4⟩ := hev q hq hq1
    have hrl : s.resident.length = s.tlb_lru_order.length := by simp [TLBSimulator.resident]
    refine ⟨?_, ?_, ?_⟩
    · have := hinv.bound
      rw [hsz] at this
      omega
    · have h5 : s1.misses = (View.step c page_size s.view a).misses := by
        rw [← hview1]; rfl
      rw [h5, view_step_miss h1]
      rfl
    · have : s.resident.getLast? = (s.tlb_lru_order.getLast?).map Node.val := by
        simp [TLBSimulator.resident, List.getLast?_map]
      rw [← this]
      exact h4
  · intro q r hq hq1 hr hr1
    have h1 := (hev q hq hq1).2.2
    have h2 := (hev r hr hr1).2.2
    rw [h1] at h2
    exact Option.some.inj h2

/-- Witness of C18: capacity 2, page size 4096; three pages were submitted, two are
resident, and a fourth page evicts one of them. -/
theorem C18_resident_count_witness :
    (1 ≤ 2 ∧ 0 < 4096) ∧
    ∃ s s1, (TLBSimulator.new 2 4096).access_all [0, 4096, 8192] = .ok s ∧
      s.access_address 12288 = .ok s1 ∧
      s.tlb.length = min 2 s.cold_misses ∧
      s.tlb_lru_order.length = min 2 s.cold_misses ∧
      s.tlb.length = min 2 (([0, 4096, 8192] : List Nat).map (· / 4096)).toFinset.card ∧
      s.tlb.length ≤ s1.tlb.length ∧
      (∀ q, q ∈ s.resident → q ∉ s1.resident →
        s.tlb.length = 2 ∧ s1.misses = s.misses + 1 ∧
        (s.tlb_lru_order.getLast?).map Node.val = some q) ∧
      (∀ q r, q ∈ s.resident → q ∉ s1.resident → r ∈ s.resident → r ∉ s1.resident →
        q = r) :=
  ⟨by decide, C18_resident_count 2 4096 (by decide) (by decide) [0, 4096, 8192] 12288⟩

/-! ## Refinement of the reference LRU model -/

theorem mem_dedup_keep_first (l : List Nat) (x : Nat) : x ∈ dedup_keep_first l ↔ x ∈ l := by
  induction l with
  | nil => simp [dedup_keep_first]
  | cons y ys ih =>
    simp only [dedup_keep_first, List.mem_cons, List.mem_filter, ih, decide_eq_true_eq]
    constructor
    · rintro (h | ⟨h, _⟩)
      · exact Or.inl h
      · exact Or.inr h
    · intro h
      by_cases hxy : x = y
      · exact Or.inl hxy
      · rcases h with h | h
        · exact absurd h hxy
        · exact Or.inr ⟨h, hxy⟩

theorem nodup_dedup_keep_first (l : List Nat) : (dedup_keep_first l).Nodup := by
  induction l with
  | nil => exact List.nodup_nil
  | cons y ys ih =>
    simp only [dedup_keep_first]
    rw [List.nodup_cons]
    refine ⟨?_, ih.filter _⟩
    intro h
    rw [List.mem_filter] at h
    simpa using h.2

theorem lru_touch_take (p : Nat) (D : List Nat) (hD : D.Nodup) (k : Nat) :
    (if p ∈ D.take (k + 1) then (D.take (k + 1)).erase p
      else if k + 1 ≤ (D.take (k + 1)).length then (D.take (k + 1)).dropLast
      else D.take (k + 1)) = (D.filter (· ≠ p)).take k := by
  induction D generalizing k with
  | nil => simp
  | cons x D ih =>
    rw [List.nodup_cons] at hD
    by_cases hx : x = p
    · subst hx
      have hf : D.filter (· ≠ x) = D := by
        rw [List.filter_eq_self]
        intro y hy
        have : y ≠ x := fun h => hD.1 (h ▸ hy)
        simpa using this
      rw [List.take_succ_cons, if_pos (List.mem_cons_self _ _), List.erase_cons_head,
        List.filter_cons_of_neg (by simp), hf]
    · have hpx : p ≠ x := fun h => hx h.symm
      have hfx : (x :: D).filter (· ≠ p) = x :: D.filter (· ≠ p) := by
        simp [hx]
      rw [hfx]
      cases k with
      | zero =>
        simp [hpx]
      | succ k =>
        have hih := ih hD.2 k
        rw [List.take_succ_cons, List.take_succ_cons, ← hih]
        by_cases hmem : p ∈ D.take (k + 1)
        · simp [hmem, hpx, hx]
        · have h1 : p ∉ x :: D.take (k + 1) := by
            simp [hpx, hmem]
          rw [if_neg h1, if_neg hmem, List.length_cons]
          by_cases hlen : k + 1 ≤ (D.take (k + 1)).length
          · have hne : D.take (k + 1) ≠ [] := by
              intro h
              rw [h] at hlen
              simp at hlen
            rw [if_pos hlen, if_pos (by omega), List.dropLast_cons_of_ne_nil hne]
          · rw [if_neg hlen, if_neg (by omega)]

theorem view_step_order (c page_size : Nat) (v : View) (a : Nat) :
    (View.step c page_size v a).order =
      a / page_size ::
        (if a / page_size ∈ v.order then v.order.erase (a / page_size)
          else if c ≤ v.order.length then v.order.dropLast else v.order) := by
  by_cases hp : a / page_size ∈ v.order
  · rw [view_step_hit hp, if_pos hp]
  · rw [view_step_miss hp, if_neg hp]

theorem lru_reference_snoc (k page_size : Nat) (addrs : List Nat) (a : Nat) :
    lru_reference (k + 1) page_size (addrs ++ [a]) =
      a / page_size ::
        ((dedup_keep_first (addrs.map (· / page_size)).reverse).filter
          (· ≠ a / page_size)).take k := by
  simp only [lru_reference, List.map_append, List.map_cons, List.map_nil,
    List.reverse_append, List.reverse_cons, List.reverse_nil, List.nil_append,
    List.singleton_append, dedup_keep_first, List.take_succ_cons]

theorem view_run_order {c : Nat} (hc : 1 ≤ c) (page_size : Nat) (addrs : List Nat) :
    (View.run c page_size View.fresh addrs).order = lru_reference c page_size addrs := by
  obtain ⟨k, hk⟩ : ∃ k, c = k + 1 := ⟨c - 1, by omega⟩
  subst hk
  induction addrs using List.reverseRecOn with
  | nil => rfl
  | append_singleton l a ih =>
    rw [view_run_append, lru_reference_snoc]
    have hstep : View.run (k + 1) page_size (View.run (k + 1) page_size View.fresh l) [a]
        = View.step (k + 1) page_size (View.run (k + 1) page_size View.fresh l) a := rfl
    rw [hstep, view_step_order, ih]
    congr 1
    exact lru_touch_take (a / page_size) _ (nodup_dedup_keep_first _) k

theorem indexOf_dedup_keep_first (R : List Nat) :
    (dedup_keep_first R).Pairwise (fun x y => R.indexOf x < R.indexOf y) := by
  induction R with
  | nil => exact List.Pairwise.nil
  | cons z R ih =>
    simp only [dedup_keep_first]
    rw [List.pairwise_cons]
    constructor
    · intro y hy
      rw [List.mem_filter] at hy
      have hyz : y ≠ z := by simpa using hy.2
      rw [List.indexOf_cons_self, List.indexOf_cons_ne _ (fun h => hyz h.symm)]
      exact Nat.succ_pos _
    · refine (ih.filter (fun y => decide (y ≠ z))).imp_of_mem ?_
      intro x y hx hy hxy
      rw [List.mem_filter] at hx hy
      have hxz : x ≠ z := by simpa using hx.2
      have hyz : y ≠ z := by simpa using hy.2
      rw [List.indexOf_cons_ne _ (fun h => hxz h.symm),
        List.indexOf_cons_ne _ (fun h => hyz h.symm)]
      exact Nat.succ_lt_succ hxy

theorem view_step_hit_iff (c page_size : Nat) (v : View) (a : Nat) :
    ((View.step c page_size v a).hits = v.hits + 1 ↔ a / page_size ∈ v.order) ∧
    ((View.step c page_size v a).misses = v.misses + 1 ↔ a / page_size ∉ v.order) := by
  by_cases hp : a / page_size ∈ v.order
  · rw [view_step_hit hp]
    refine ⟨⟨fun _ => hp, fun _ => rfl⟩, ⟨fun h => ?_, fun h => absurd hp h⟩⟩
    have h1 : v.misses = v.misses + 1 := h
    omega
  · rw [view_step_miss hp]
    refine ⟨⟨fun h => ?_, fun h => absurd h hp⟩, ⟨fun _ => hp, fun _ => rfl⟩⟩
    have h1 : v.hits = v.hits + 1 := h
    omega

/-- C16: for every engine built with capacity `c` at least 1 and a positive page size and
every address sequence, the recency ordering after the run equals the reference LRU model
`lru_reference`: the distinct page numbers of the sequence, most recent occurrence first
(the de-duplicated reverse of the page-number sequence), cut to its first `c` elements;
this also holds after one more submission.  Hence that submission is a hit exactly when its
page is among the `c` most recently used distinct pages and a miss otherwise, and a page
that it evicts was accessed less recently than every other resident page (its position in
the reversed page sequence, the number of submissions since its last access, is the
largest). -/
theorem C16_refines_lru_reference (c page_size : Nat) (hc : 1 ≤ c) (hp : 0 < page_size)
    (addrs : List Nat) (a : Nat) :
    ∃ s s1, (TLBSimulator.new c page_size).access_all addrs = .ok s ∧
      s.access_address a = .ok s1 ∧
      s.resident = lru_reference c page_size addrs ∧
      s1.resident = lru_reference c page_size (addrs ++ [a]) ∧
      (s1.hits = s.hits + 1 ↔ a / page_size ∈ lru_reference c page_size addrs) ∧
      (s1.misses = s.misses + 1 ↔ a / page_size ∉ lru_reference c page_size addrs) ∧
      (∀ q, q ∈ s.resident → q ∉ s1.resident →
        (s.tlb_lru_order.getLast?).map Node.val = some q ∧
        ∀ r, r ∈ s.resident → r ≠ q →
          (addrs.map (· / page_size)).reverse.indexOf r
            < (addrs.map (· / page_size)).reverse.indexOf q) := by
  obtain ⟨s, hrun, hinv, hsz, hps, hview⟩ := access_all_new hc hp addrs
  obtain ⟨s1, hstep, _, _, _, hview1⟩ := access_address_sound hinv a
  rw [hsz, hps] at hview1
  have hres : s.resident = lru_reference c page_size addrs := by
    have : s.resident = (View.run c page_size View.fresh addrs).order := by
      rw [← hview]; rfl
    rw [this, view_run_order hc]
  have hres1 : s1.resident = lru_reference c page_size (addrs ++ [a]) := by
    have : s1.resident = (View.run c page_size View.fresh (addrs ++ [a])).order := by
      rw [view_run_append, ← hview]
      show s1.resident = (View.step c page_size s.view a).order
      rw [← hview1]; rfl
    rw [this, view_run_order hc]
  obtain ⟨hh, hm⟩ := view_step_hit_iff c page_size s.view a
  rw [← hview1] at hh hm
  have hord : s.view.order = lru_reference c page_size addrs := hres
  rw [hord] at hh hm
  refine ⟨s, s1, hrun, hstep, hres, hres1, hh, hm, ?_⟩
  intro q hq hq1
  have hq2 : q ∉ (View.step c page_size s.view a).order := by
    rw [← hview1]; exact hq1
  obtain ⟨_, _, _, hlast⟩ := view_step_evicts hq hq2
  have hlast2 : s.resident.getLast? = some q := hlast
  refine ⟨?_, ?_⟩
  · have : s.resident.getLast? = (s.tlb_lru_order.getLast?).map Node.val := by
      simp [TLBSimulator.resident, List.getLast?_map]
    rw [← this]
    exact hlast2
  · intro r hr hrq
    obtain ⟨init, hinit⟩ := List.getLast?_eq_some_iff.1 hlast2
    have hpw : s.resident.Pairwise (fun x y =>
        (addrs.map (· / page_size)).reverse.indexOf x
          < (addrs.map (· / page_size)).reverse.indexOf y) := by
      rw [hres]
      exact (indexOf_dedup_keep_first _).sublist (List.take_sublist _ _)
    rw [hinit] at hpw hr
    rw [List.pairwise_append] at hpw
    rw [List.mem_append, List.mem_singleton] at hr
    rcases hr with h1 | h1
    · exact hpw.2.2 r h1 q (List.mem_singleton_self q)
    · exact absurd h1 hrq

/-- Witness of C16: capacity 2, page size 4096, the run over pages 0, 1, 0 followed by a
submission of page 2, which evicts page 1. -/
theorem C16_refines_lru_reference_witness :
    (1 ≤ 2 ∧ 0 < 4096) ∧
    ∃ s s1, (TLBSimulator.new 2 4096).access_all [0, 4096, 1] = .ok s ∧
      s.access_address 8192 = .ok s1 ∧
      s.resident = lru_reference 2 4096 [0, 4096, 1] ∧
      s1.resident = lru_reference 2 4096 ([0, 4096, 1] ++ [8192]) ∧
      (s1.hits = s.hits + 1 ↔ 8192 / 4096 ∈ lru_reference 2 4096 [0, 4096, 1]) ∧
      (s1.misses = s.misses + 1 ↔ 8192 / 4096 ∉ lru_reference 2 4096 [0, 4096, 1]) ∧
      (∀ q, q ∈ s.resident → q ∉ s1.resident →
        (s.tlb_lru_order.getLast?).map Node.val = some q ∧
        ∀ r, r ∈ s.resident → r ≠ q →
          (([0, 4096, 1] : List Nat).map (· / 4096)).reverse.indexOf r
            < (([0, 4096, 1] : List Nat).map (· / 4096)).reverse.indexOf q) :=
  ⟨by decide, C16_refines_lru_reference 2 4096 (by decide) (by decide) [0, 4096, 1] 8192⟩

/-! ## Inclusion between capacities -/

theorem lru_reference_subset {c1 c2 : Nat} (h : c1 ≤ c2) (page_size : Nat) (addrs : List Nat) :
    ∀ q ∈ lru_reference c1 page_size addrs, q ∈ lru_reference c2 page_size addrs := by
  intro q hq
  unfold lru_reference at hq ⊢
  have h1 : List.take c1 (dedup_keep_first (addrs.map (· / page_size)).reverse)
      = List.take c1 (List.take c2 (dedup_keep_first (addrs.map (· / page_size)).reverse)) := by
    rw [List.take_take, Nat.min_eq_left h]
  rw [h1] at hq
  exact List.take_subset _ _ hq

theorem view_run_accesses (c page_size : Nat) (v : View) (addrs : List Nat) :
    (View.run c page_size v addrs).accesses = v.accesses + addrs.length := by
  induction addrs generalizing v with
  | nil => rfl
  | cons a rest ih =>
    have h1 : View.run c page_size v (a :: rest)
        = View.run c page_size (View.step c page_size v a) rest := rfl
    have h2 : (View.step c page_size v a).accesses = v.accesses + 1 := by
      by_cases hp : a / page_size ∈ v.order
      · rw [view_step_hit hp]
      · rw [view_step_miss hp]
    rw [h1, ih, h2, List.length_cons]
    omega

theorem view_step_hits (c page_size : Nat) (v : View) (a : Nat) :
    (View.step c page_size v a).hits = if a / page_size ∈ v.order then v.hits + 1 else v.hits := by
  by_cases hp : a / page_size ∈ v.order
  · rw [view_step_hit hp, if_pos hp]
  · rw [view_step_miss hp, if_neg hp]

theorem view_run_hits_mono {c1 c2 : Nat} (h1 : 1 ≤ c1) (h12 : c1 ≤ c2) (page_size : Nat)
    (addrs : List Nat) :
    (View.run c1 page_size View.fresh addrs).hits
      ≤ (View.run c2 page_size View.fresh addrs).hits := by
  induction addrs using List.reverseRecOn with
  | nil => exact Nat.le_refl _
  | append_singleton l a ih =>
    rw [view_run_append, view_run_append]
    have e1 : View.run c1 page_size (View.run c1 page_size View.fresh l) [a]
        = View.step c1 page_size (View.run c1 page_size View.fresh l) a := rfl
    have e2 : View.run c2 page_size (View.run c2 page_size View.fresh l) [a]
        = View.step c2 page_size (View.run c2 page_size View.fresh l) a := rfl
    rw [e1, e2, view_step_hits, view_step_hits, view_run_order h1,
      view_run_order (Nat.le_trans h1 h12)]
    by_cases hp : a / page_size ∈ lru_reference c1 page_size l
    · rw [if_pos hp, if_pos (lru_reference_subset h12 page_size l _ hp)]
      exact Nat.succ_le_succ ih
    · rw [if_neg hp]
      split
      · exact Nat.le_succ_of_le ih
      · exact ih

theorem view_run_cold_card (c page_size : Nat) (addrs : List Nat) :
    (View.run c page_size View.fresh addrs).cold_misses
      = (addrs.map (· / page_size)).toFinset.card := by
  have hg : (View.run c page_size View.fresh addrs).Good := view_run_good view_fresh_good _
  have hfin : (View.run c page_size View.fresh addrs).seen.toFinset
      = (addrs.map (· / page_size)).toFinset := by
    ext q
    have := view_run_seen c page_size view_fresh_good addrs q
    rw [List.mem_toFinset, List.mem_toFinset, List.mem_map]
    simpa [View.fresh] using this
  rw [hg.cold_seen, ← hfin, List.toFinset_card_of_nodup hg.seen_nodup]

/-- C20: LRU inclusion.  For every positive page size, capacities `1 ≤ c1 ≤ c2` and every
address sequence, after submitting the sequence to two fresh engines of capacities `c1`
and `c2`, every page resident in the `c1`-engine is resident in the `c2`-engine; a further
submission that hits in the `c1`-engine also hits in the `c2`-engine; hence the
`c1`-engine has at most as many hits and at least as many misses as the `c2`-engine, and
both count the same number of accesses and the same number of cold misses. -/
theorem C20_lru_inclusion (page_size : Nat) (hp : 0 < page_size) (c1 c2 : Nat)
    (h1 : 1 ≤ c1) (h12 : c1 ≤ c2) (addrs : List Nat) (a : Nat) :
    ∃ s t s1 t1, (TLBSimulator.new c1 page_size).access_all addrs = .ok s ∧
      (TLBSimulator.new c2 page_size).access_all addrs = .ok t ∧
      s.access_address a = .ok s1 ∧ t.access_address a = .ok t1 ∧
      (∀ q, q ∈ s.resident → q ∈ t.resident) ∧
      (∀ k it, (k, it) ∈ s.tlb → k ∈ t.tlb.map Prod.fst) ∧
      (s1.hits = s.hits + 1 → t1.hits = t.hits + 1) ∧
      s.hits ≤ t.hits ∧ t.misses ≤ s.misses ∧ s.accesses = t.accesses ∧
      s.cold_misses = t.cold_misses := by
  have h2 : 1 ≤ c2 := Nat.le_trans h1 h12
  obtain ⟨s, hs, hinvs, hszs, hpss, hvs⟩ := access_all_new h1 hp addrs
  obtain ⟨t, ht, hinvt, hszt, hpst, hvt⟩ := access_all_new h2 hp addrs
  obtain ⟨s1, hs1, _, _, _, hvs1⟩ := access_address_sound hinvs a
  obtain ⟨t1, ht1, _, _, _, hvt1⟩ := access_address_sound hinvt a
  rw [hszs, hpss] at hvs1
  rw [hszt, hpst] at hvt1
  have hress : s.view.order = lru_reference c1 page_size addrs := by
    rw [hvs, view_run_order h1]
  have hrest : t.view.order = lru_reference c2 page_size addrs := by
    rw [hvt, view_run_order h2]
  have hsub : ∀ q, q ∈ s.resident → q ∈ t.resident := by
    intro q hq
    have hq1 : q ∈ s.view.order := hq
    rw [hress] at hq1
    have := lru_reference_subset h12 page_size addrs q hq1
    rw [← hrest] at this
    exact this
  have hgs : s.view.Good := by rw [hvs]; exact view_run_good view_fresh_good _
  have hgt : t.view.Good := by rw [hvt]; exact view_run_good view_fresh_good _
  have hacc : s.accesses = t.accesses := by
    have e1 : s.accesses = (View.run c1 page_size View.fresh addrs).accesses := by
      rw [← hvs]; rfl
    have e2 : t.accesses = (View.run c2 page_size View.fresh addrs).accesses := by
      rw [← hvt]; rfl
    rw [e1, e2, view_run_accesses, view_run_accesses]
  have hhits : s.hits ≤ t.hits := by
    have e1 : s.hits = (View.run c1 page_size View.fresh addrs).hits := by
      rw [← hvs]; rfl
    have e2 : t.hits = (View.run c2 page_size View.fresh addrs).hits := by
      rw [← hvt]; rfl
    rw [e1, e2]
    exact view_run_hits_mono h1 h12 page_size addrs
  have hcold : s.cold_misses = t.cold_misses := by
    have e1 : s.cold_misses = (View.run c1 page_size View.fresh addrs).cold_misses := by
      rw [← hvs]; rfl
    have e2 : t.cold_misses = (View.run c2 page_size View.fresh addrs).cold_misses := by
      rw [← hvt]; rfl
    rw [e1, e2, view_run_cold_card, view_run_cold_card]
  have hmiss : t.misses ≤ s.misses := by
    have e1 : s.hits + s.misses = s.accesses := hgs.hits_misses
    have e2 : t.hits + t.misses = t.accesses := hgt.hits_misses
    omega
  refine ⟨s, t, s1, t1, hs, ht, hs1, ht1, hsub, ?_, ?_, hhits, hmiss, hacc, hcold⟩
  · intro k it hk
    have hkeys : (t.tlb.map Prod.fst).Perm (t.tlb_lru_order.map Node.val) := by
      have e := hinvt.map_perm.map Prod.fst
      rw [List.map_map] at e
      exact e
    rw [hkeys.mem_iff]
    apply hsub
    rw [hinvs.map_perm.mem_iff] at hk
    obtain ⟨n, hn, heq⟩ := List.mem_map.1 hk
    simp only [Prod.mk.injEq] at heq
    rw [← heq.1]
    exact List.mem_map_of_mem Node.val hn
  · intro hhit
    have e1 := (view_step_hit_iff c1 page_size s.view a).1
    have e2 := (view_step_hit_iff c2 page_size t.view a).1
    rw [← hvs1] at e1
    rw [← hvt1] at e2
    exact e2.2 (hsub _ (e1.1 hhit))

/-- Witness of C20: page size 4096, capacities 1 and 2, the run over pages 0, 1, 0, 2 and
a further submission of page 0. -/
theorem C20_lru_inclusion_witness :
    (0 < 4096 ∧ 1 ≤ 1 ∧ 1 ≤ 2) ∧
    ∃ s t s1 t1, (TLBSimulator.new 1 4096).access_all [0, 4096, 1, 8192] = .ok s ∧
      (TLBSimulator.new 2 4096).access_all [0, 4096, 1, 8192] = .ok t ∧
      s.access_address 0 = .ok s1 ∧ t.access_address 0 = .ok t1 ∧
      (∀ q, q ∈ s.resident → q ∈ t.resident) ∧
      (∀ k it, (k, it) ∈ s.tlb → k ∈ t.tlb.map Prod.fst) ∧
      (s1.hits = s.hits + 1 → t1.hits = t.hits + 1) ∧
      s.hits ≤ t.hits ∧ t.misses ≤ s.misses ∧ s.accesses = t.accesses ∧
      s.cold_misses = t.cold_misses :=
  ⟨by decide, C20_lru_inclusion 4096 (by decide) 1 2 (by decide) (by decide)
    [0, 4096, 1, 8192] 0⟩

/-! ## The history behind a capacity miss -/

theorem view_eviction_point (c page_size p : Nat) (rest : List Nat) (v : View)
    (hin : p ∈ v.order) (hout : p ∉ (View.run c page_size v rest).order) :
    ∃ j x, rest[j]? = some x ∧ p ∈ (View.run c page_size v (rest.take j)).order ∧
      p ∉ (View.step c page_size (View.run c page_size v (rest.take j)) x).order := by
  induction rest generalizing v with
  | nil => exact absurd hin hout
  | cons y r ih =>
    by_cases h : p ∈ (View.step c page_size v y).order
    · obtain ⟨j, x, hx, h1, h2⟩ := ih (View.step c page_size v y) h hout
      exact ⟨j + 1, x, by rw [List.getElem?_cons_succ]; exact hx, h1, h2⟩
    · exact ⟨0, y, List.getElem?_cons_zero, hin, h⟩

theorem view_admission_point (c page_size p : Nat) (pre : List Nat)
    (hseen : p ∈ (View.run c page_size View.fresh pre).seen) :
    ∃ i y, pre[i]? = some y ∧ y / page_size = p ∧
      p ∈ (View.run c page_size View.fresh (pre.take (i + 1))).order := by
  have h1 := (view_run_seen c page_size view_fresh_good pre p).1 hseen
  rcases h1 with h1 | ⟨y, hy, hyp⟩
  · exact absurd h1 (List.not_mem_nil _)
  · obtain ⟨i, hi⟩ := List.getElem?_of_mem hy
    refine ⟨i, y, hi, hyp, ?_⟩
    rw [List.take_succ, hi, view_run_append]
    show p ∈ (View.step c page_size (View.run c page_size View.fresh (pre.take i)) y).order
    rw [← hyp]
    exact view_step_head _ _ _ _

theorem view_capacity_miss_history (c page_size : Nat) (pre : List Nat) (a : Nat)
    (hcap : (View.step c page_size (View.run c page_size View.fresh pre) a).capacity_misses
      = (View.run c page_size View.fresh pre).capacity_misses + 1) :
    ∃ i j y x, i < j + 1 ∧ pre[i]? = some y ∧ y / page_size = a / page_size ∧
      a / page_size ∈ (View.run c page_size View.fresh (pre.take (i + 1))).order ∧
      pre[j + 1]? = some x ∧
      a / page_size ∈ (View.run c page_size View.fresh (pre.take (j + 1))).order ∧
      a / page_size ∉
        (View.step c page_size (View.run c page_size View.fresh (pre.take (j + 1))) x).order := by
  have hmiss : a / page_size ∉ (View.run c page_size View.fresh pre).order := by
    intro hin
    rw [view_step_hit hin] at hcap
    have : (View.run c page_size View.fresh pre).capacity_misses
        = (View.run c page_size View.fresh pre).capacity_misses + 1 := hcap
    omega
  have hseen : a / page_size ∈ (View.run c page_size View.fresh pre).seen := by
    by_contra hns
    rw [view_step_miss hmiss] at hcap
    have : (if a / page_size ∈ (View.run c page_size View.fresh pre).seen then
          (View.run c page_size View.fresh pre).capacity_misses + 1
        else (View.run c page_size View.fresh pre).capacity_misses)
        = (View.run c page_size View.fresh pre).capacity_misses + 1 := hcap
    rw [if_neg hns] at this
    omega
  obtain ⟨i, y, hy, hyp, hadm⟩ := view_admission_point c page_size (a / page_size) pre hseen
  have hsplit : View.run c page_size View.fresh pre
      = View.run c page_size (View.run c page_size View.fresh (pre.take (i + 1)))
          (pre.drop (i + 1)) := by
    rw [← view_run_append, List.take_append_drop]
  rw [hsplit] at hmiss
  obtain ⟨k, x, hx, h1, h2⟩ :=
    view_eviction_point c page_size (a / page_size) (pre.drop (i + 1)) _ hadm hmiss
  have htake : pre.take (i + k + 1) = pre.take (i + 1) ++ (pre.drop (i + 1)).take k := by
    rw [← List.take_add]
    congr 1
    omega
  refine ⟨i, i + k, y, x, by omega, hy, hyp, hadm, ?_, ?_, ?_⟩
  · rw [List.getElem?_drop] at hx
    rw [← hx]
    congr 1
    omega
  · rw [htake, view_run_append]
    exact h1
  · rw [htake, view_run_append]
    exact h2

/-- C17: for every engine built with capacity at least 1 and a positive page size and every
address sequence `pre` followed by an address `a` of page `p`: when the submission of `a`
is classified as a capacity miss, then `pre` contains an earlier submission (at position
`i`, of page `p` itself) after which `p` was resident, and a later submission (at position
`j > i`, still before `a`) of a different page, before which `p` was resident, which is a
miss and after which `p` is no longer resident, so that this miss evicted `p`. -/
theorem C17_capacity_miss_history (c page_size : Nat) (hc : 1 ≤ c) (hp : 0 < page_size)
    (pre : List Nat) (a : Nat) :
    ∃ s s1, (TLBSimulator.new c page_size).access_all pre = .ok s ∧
      s.access_address a = .ok s1 ∧
      (s1.capacity_misses = s.capacity_misses + 1 →
        ∃ i j y x si sj sj1, i < j ∧ j < pre.length ∧
          pre[i]? = some y ∧ y / page_size = a / page_size ∧
          (TLBSimulator.new c page_size).access_all (pre.take (i + 1)) = .ok si ∧
          a / page_size ∈ si.resident ∧
          pre[j]? = some x ∧ x / page_size ≠ a / page_size ∧
          (TLBSimulator.new c page_size).access_all (pre.take j) = .ok sj ∧
          a / page_size ∈ sj.resident ∧
          sj.access_address x = .ok sj1 ∧
          (TLBSimulator.new c page_size).access_all (pre.take (j + 1)) = .ok sj1 ∧
          a / page_size ∉ sj1.resident ∧
          sj1.misses = sj.misses + 1) := by
  obtain ⟨s, hrun, hinv, hsz, hps, hview⟩ := access_all_new hc hp pre
  obtain ⟨s1, hstep, _, _, _, hview1⟩ := access_address_sound hinv a
  rw [hsz, hps] at hview1
  refine ⟨s, s1, hrun, hstep, ?_⟩
  intro hcap
  have hcapv : (View.step c page_size (View.run c page_size View.fresh pre) a).capacity_misses
      = (View.run c page_size View.fresh pre).capacity_misses + 1 := by
    rw [← hview, ← hview1]
    exact hcap
  obtain ⟨i, j, y, x, hij, hy, hyp, hadm, hx, hbefore, hafter⟩ :=
    view_capacity_miss_history c page_size pre a hcapv
  obtain ⟨si, hsi, _, _, _, hvi⟩ := access_all_new hc hp (pre.take (i + 1))
  obtain ⟨sj, hsj, hinvj, hszj, hpsj, hvj⟩ := access_all_new hc hp (pre.take (j + 1))
  obtain ⟨sj1, hstepj, _, _, _, hvj1⟩ := access_address_sound hinvj x
  rw [hszj, hpsj, hvj] at hvj1
  have hjlen : j + 1 < pre.length := by
    by_contra hn
    rw [List.getElem?_eq_none (by omega)] at hx
    cases hx
  have hres_before : a / page_size ∈ sj.view.order := by
    rw [hvj]
    exact hbefore
  have hres_after : a / page_size ∉ sj1.view.order := by
    rw [hvj1]
    exact hafter
  obtain ⟨hxmiss, hxne, _, _⟩ := view_step_evicts hbefore hafter
  have hmissj : sj1.misses = sj.misses + 1 := by
    have e1 : sj1.misses
        = (View.step c page_size (View.run c page_size View.fresh (pre.take (j + 1))) x).misses := by
      rw [← hvj1]; rfl
    rw [e1, view_step_miss hxmiss, ← hvj]
    rfl
  have hsnoc : (TLBSimulator.new c page_size).access_all (pre.take (j + 1 + 1)) = .ok sj1 := by
    rw [List.take_succ, hx]
    exact access_all_snoc hsj hstepj
  refine ⟨i, j + 1, y, x, si, sj, sj1, hij, hjlen, hy, hyp, hsi, ?_, hx, hxne, hsj,
    hres_before, hstepj, hsnoc, hres_after, hmissj⟩
  show a / page_size ∈ si.view.order
  rw [hvi]
  exact hadm

/-- Witness of C17: capacity 1, page size 4096; page 0 is admitted by the first submission,
evicted by the submission of page 1, and its resubmission is a capacity miss. -/
theorem C17_capacity_miss_history_witness :
    (1 ≤ 1 ∧ 0 < 4096) ∧
    ∃ s s1, (TLBSimulator.new 1 4096).access_all [0, 4096] = .ok s ∧
      s.access_address 100 = .ok s1 ∧
      (s1.capacity_misses = s.capacity_misses + 1 →
        ∃ i j y x si sj sj1, i < j ∧ j < ([0, 4096] : List Nat).length ∧
          ([0, 4096] : List Nat)[i]? = some y ∧ y / 4096 = 100 / 4096 ∧
          (TLBSimulator.new 1 4096).access_all (([0, 4096] : List Nat).take (i + 1)) = .ok si ∧
          100 / 4096 ∈ si.resident ∧
          ([0, 4096] : List Nat)[j]? = some x ∧ x / 4096 ≠ 100 / 4096 ∧
          (TLBSimulator.new 1 4096).access_all (([0, 4096] : List Nat).take j) = .ok sj ∧
          100 / 4096 ∈ sj.resident ∧
          sj.access_address x = .ok sj1 ∧
          (TLBSimulator.new 1 4096).access_all (([0, 4096] : List Nat).take (j + 1)) = .ok sj1 ∧
          100 / 4096 ∉ sj1.resident ∧
          sj1.misses = sj.misses + 1) :=
  ⟨by decide, C17_capacity_miss_history 1 4096 (by decide) (by decide) [0, 4096] 100⟩
